import Mathlib

/-! balde: the template compiler and the resource loader.

A shallow embedding of `src/bin/balde-template-gen.c` (`generate_source`,
`generate_header`, `get_template_name`, `main`) and `src/lib/resources.c`
(`balde_resources_list_childrens`, `balde_resources_list_files`,
`balde_resources_load`).

A C string is modelled by the list of its bytes before the terminating NUL
(`CStr`); a byte is a natural number.  The GLib routines the program calls
(`g_strescape`, `g_regex_replace_literal`, `g_regex_replace_eval`,
`g_path_get_basename`, `g_ascii_isalpha`, `g_slist_insert_sorted`,
`g_strcmp0`) are library code outside the repository; they are modelled after
their GLib implementation and named as in GLib.
-/

namespace Balde

/-- The bytes of a C string, terminator excluded. -/
abbrev CStr := List Nat

/-- The bytes of an ASCII string literal of the source. -/
def ascii (s : String) : CStr := s.data.map Char.toNat

/-! ## GLib string helpers -/

/-- GLib `g_ascii_isalpha`: `A`..`Z` or `a`..`z`. -/
def g_ascii_isalpha (c : Nat) : Bool :=
  (65 ≤ c && c ≤ 90) || (97 ≤ c && c ≤ 122)

/-- The image of one byte under GLib `g_strescape` with an empty exception
list: the `switch` of its loop body. -/
def escape_byte (c : Nat) : CStr :=
  if c = 8 then ascii "\\b"
  else if c = 12 then ascii "\\f"
  else if c = 10 then ascii "\\n"
  else if c = 13 then ascii "\\r"
  else if c = 9 then ascii "\\t"
  else if c = 11 then ascii "\\v"
  else if c = 92 then ascii "\\\\"
  else if c = 34 then ascii "\\\""
  else if c < 32 ∨ 127 ≤ c then
    [92, 48 + (c / 64) % 8, 48 + (c / 8) % 8, 48 + c % 8]
  else [c]

/-- GLib `g_strescape (source, "")`: every byte is replaced by its image. -/
def g_strescape : CStr → CStr
  | [] => []
  | c :: cs => escape_byte c ++ g_strescape cs

/-! ## A backtracking matcher for the two patterns of the program

A pattern is a function from a continuation to a matcher: the matcher consumes
a prefix of the subject and hands the rest to the continuation; when the
continuation fails, a greedy repetition retries with one item less, as PCRE
does. -/

/-- A literal byte of a pattern. -/
def rlit (c : Nat) (k : CStr → Option α) : CStr → Option α
  | [] => none
  | x :: xs => if x = c then k xs else none

/-- A character class of a pattern. -/
def rclass (p : Nat → Bool) (k : CStr → Option α) : CStr → Option α
  | [] => none
  | x :: xs => if p x then k xs else none

/-- A greedy repetition `p*` of a one-byte item: the longest run is tried
first, then shorter ones. -/
def rstar (p : Nat → Bool) (k : CStr → Option α) : CStr → Option α
  | [] => k []
  | x :: xs =>
    if p x then
      match rstar p k xs with
      | some r => some r
      | none => k (x :: xs)
    else k (x :: xs)

/-- The class `[a-zA-Z0-9_]`. -/
def isIdentByte (c : Nat) : Bool :=
  g_ascii_isalpha c || (48 ≤ c && c ≤ 57) || c = 95

/-- The class of the pattern item ` ` (a space). -/
def isSpaceByte (c : Nat) : Bool := c = 32

/-- The pattern `%` of `re_percent`, matched at the start of the subject:
the captured group (none, so empty) and the length of the match. -/
def re_percent (s : CStr) : Option (CStr × Nat) :=
  rlit 37 (fun rest => some ([], s.length - rest.length)) s

/-- The pattern `{{ *([a-zA-Z][a-zA-Z0-9_]*) *}}` of `re_variable`, matched at
the start of the subject: the text of group 1 and the length of the match. -/
def re_variable (s : CStr) : Option (CStr × Nat) :=
  rlit 123 (rlit 123 (rstar isSpaceByte (fun g0 =>
    rclass g_ascii_isalpha (rstar isIdentByte (fun g1 =>
      rstar isSpaceByte (rlit 125 (rlit 125 (fun rest =>
        some (g0.take (g0.length - g1.length), s.length - rest.length)))) g1)) g0))) s

/-- The scan shared by GLib `g_regex_replace_literal` and
`g_regex_replace_eval`: at each offset the pattern is tried; a match is
replaced by `repl`, its group 1 is recorded, and the scan resumes right after
the match; a byte where no match starts is copied.  `skip` counts the bytes of
the last match still to be passed over.  Neither pattern of the program
matches the empty text, so a match always covers the byte it starts at. -/
def regex_replace (re : CStr → Option (CStr × Nat)) (repl : CStr) :
    Nat → CStr → CStr × List CStr
  | _, [] => ([], [])
  | skip + 1, _ :: cs => regex_replace re repl skip cs
  | 0, c :: cs =>
    match re (c :: cs) with
    | some (g, len) =>
      let r := regex_replace re repl (len - 1) cs
      (repl ++ r.1, g :: r.2)
    | none =>
      let r := regex_replace re repl 0 cs
      (c :: r.1, r.2)

/-! ## `balde-template-gen.c` -/

/-- The text `escaped_perc_source` of `generate_source`: the template escaped
by `g_strescape`, then every `%` replaced by `%%`. -/
def escaped_perc_source (template_source : CStr) : CStr :=
  (regex_replace re_percent (ascii "%%") 0 (g_strescape template_source)).1

/-- The text `final_source` of `generate_source`: every match of `re_variable`
in the escaped text replaced by `%s` (what `replace_template_variables_cb`
appends). -/
def final_source (template_source : CStr) : CStr :=
  (regex_replace re_variable (ascii "%s") 0 (escaped_perc_source template_source)).1

/-- The list that `generate_source` calls `variables`: group 1 of every match,
in the order `replace_template_variables_cb` appends them. -/
def template_variables (template_source : CStr) : List CStr :=
  (regex_replace re_variable (ascii "%s") 0 (escaped_perc_source template_source)).2

/-- The first `g_string_append_printf` of `generate_source`: the includes, the
format constant and the head of the routine. -/
def source_head (template_name fmt : CStr) : CStr :=
  ascii "// WARNING: this file was generated automatically by balde-template-gen\n\n#include <balde.h>\n#include <glib.h>\n\nconst gchar *balde_template_"
    ++ template_name ++ ascii "_format = \"" ++ fmt ++ ascii "\";\n\nvoid\nbalde_template_"
    ++ template_name ++ ascii "(balde_response_t *response)\n\x7b\n"

/-- The line emitted when `variables == NULL`. -/
def strdup_line (template_name : CStr) : CStr :=
  ascii "    gchar *rv = g_strdup(balde_template_" ++ template_name ++ ascii "_format);\n"

/-- The line emitted when `variables != NULL`. -/
def strdup_printf_line (template_name : CStr) : CStr :=
  ascii "    gchar *rv = g_strdup_printf(balde_template_" ++ template_name ++ ascii "_format,\n"

/-- The `for` loop of `generate_source` over the variable list: one lookup
per entry, followed by `,` when another entry follows and by `);` after the
last. -/
def lookup_lines : List CStr → CStr
  | [] => []
  | v :: rest =>
    ascii "        balde_response_get_tmpl_var(response, \"" ++ v ++ ascii "\")"
      ++ (if rest ≠ [] then ascii ",\n" else ascii ");\n")
      ++ lookup_lines rest

/-- The last `g_string_append` of `generate_source`. -/
def source_tail : CStr :=
  ascii "    balde_response_append_body(response, rv);\n    g_free(rv);\n\x7d\n"

/-- The text `generate_source` appends after its first
`g_string_append_printf`: the body of the generated routine. -/
def routine_body (template_name : CStr) (vars : List CStr) : CStr :=
  (if vars = [] then strdup_line template_name else strdup_printf_line template_name)
    ++ lookup_lines vars ++ source_tail

/-- The function `generate_source`. -/
def generate_source (template_name template_source : CStr) : CStr :=
  source_head template_name (final_source template_source)
    ++ routine_body template_name (template_variables template_source)

/-! ## Placeholders, stated on the template text -/

/-- An identifier `[A-Za-z][A-Za-z0-9_]*`. -/
def isIdentifier : CStr → Bool
  | [] => false
  | c :: cs => g_ascii_isalpha c && cs.all isIdentByte

/-- The text `{{`, `a` spaces, `v`, `b` spaces, `}}`. -/
def placeholder (a : Nat) (v : CStr) (b : Nat) : CStr :=
  [123, 123] ++ List.replicate a 32 ++ v ++ List.replicate b 32 ++ [125, 125]

/-- The text contains a substring `{{ *v *}}` with `v` an identifier. -/
def HasPlaceholder (t : CStr) : Prop :=
  ∃ pre a v b post, isIdentifier v = true ∧ t = pre ++ placeholder a v b ++ post


/-- The bytes a placeholder is made of: braces, space and identifier bytes. -/
def isPlaceholderByte (c : Nat) : Bool :=
  c = 123 || c = 125 || c = 32 || isIdentByte c

/-- The escaped text in the words of the specification: every `%` of the
string-literal escaping doubled. -/
def double_percent (s : CStr) : CStr :=
  s.flatMap (fun c => if c = 37 then [37, 37] else [c])

/-- One lookup of the generated routine, as the `for` loop of
`generate_source` prints it. -/
def lookup_call (v : CStr) : CStr :=
  ascii "        balde_response_get_tmpl_var(response, \"" ++ v ++ ascii "\")"

/-- A placeholder `{{ v }}` with `a` spaces before and `b` spaces after the
identifier, and the literal text `t` that follows it. -/
structure Segment where
  a : Nat
  v : CStr
  b : Nat
  t : CStr
  deriving DecidableEq

/-- The template `t0 {{v1}} t1 ... {{vn}} tn`. -/
def template_of (t0 : CStr) : List Segment → CStr
  | [] => t0
  | s :: rest => t0 ++ placeholder s.a s.v s.b ++ template_of s.t rest

/-- The format text expected for `t0 {{v1}} t1 ... {{vn}} tn`: the escaped
literal texts with one `%s` per placeholder. -/
def format_of (t0 : CStr) : List Segment → CStr
  | [] => escaped_perc_source t0
  | s :: rest => escaped_perc_source t0 ++ ascii "%s" ++ format_of s.t rest

/-- A text without braces. -/
def braceFree (t : CStr) : Prop := 123 ∉ t ∧ 125 ∉ t

instance (t : CStr) : Decidable (braceFree t) := by
  unfold braceFree; infer_instance

/-! ## The generated routine

`generate_source` emits a routine that hands to `balde_response_append_body`
either `g_strdup (format)` or `g_strdup_printf (format, lookups...)`, where
`format` is the string literal of the format constant as the C compiler reads
it. -/

/-- Reading a printf format that may hold only literal bytes, `%%` and `%s`:
the number of `%s` conversions, or `none` when another conversion or a lone
final `%` occurs.  The flag tells that the previous byte was an unpaired `%`. -/
def printf_slots : Bool → CStr → Option Nat
  | false, [] => some 0
  | true, [] => none
  | false, c :: cs => if c = 37 then printf_slots true cs else printf_slots false cs
  | true, c :: cs =>
    if c = 37 then printf_slots false cs
    else if c = 115 then (printf_slots false cs).map (· + 1)
    else none

/-- The position of a C compiler inside a string literal: in plain text, right
after a backslash, or inside an octal escape with one or two digits read. -/
inductive LitState where
  | text
  | backslash
  | oct1 (v : Nat)
  | oct2 (v : Nat)

/-- The byte a short escape `\c` of a C string literal stands for. -/
def short_escape (c : Nat) : Nat :=
  if c = 98 then 8 else if c = 102 then 12 else if c = 110 then 10
  else if c = 114 then 13 else if c = 116 then 9 else if c = 118 then 11
  else c

/-- The bytes a C compiler reads from the inside of a string literal: the
escapes `\b \f \n \r \t \v \\ \"` and octal escapes of one to three digits.
Trigraphs are not replaced (the default of GCC). -/
def c_string_literal : LitState → CStr → CStr
  | .text, [] => []
  | .backslash, [] => []
  | .oct1 v, [] => [v]
  | .oct2 v, [] => [v]
  | .text, c :: cs =>
    if c = 92 then c_string_literal .backslash cs else c :: c_string_literal .text cs
  | .backslash, c :: cs =>
    if 48 ≤ c ∧ c ≤ 55 then c_string_literal (.oct1 (c - 48)) cs
    else short_escape c :: c_string_literal .text cs
  | .oct1 v, c :: cs =>
    if 48 ≤ c ∧ c ≤ 55 then c_string_literal (.oct2 (v * 8 + (c - 48))) cs
    else if c = 92 then v :: c_string_literal .backslash cs
    else v :: c :: c_string_literal .text cs
  | .oct2 v, c :: cs =>
    if 48 ≤ c ∧ c ≤ 55 then ((v * 8 + (c - 48)) % 256) :: c_string_literal .text cs
    else if c = 92 then v :: c_string_literal .backslash cs
    else v :: c :: c_string_literal .text cs

/-- GLib `g_strdup_printf` on a format of literal bytes, `%%` and `%s`, with
string arguments: `none` for another conversion or a missing argument.  The
flag tells that the previous byte was an unpaired `%`. -/
def g_strdup_printf : Bool → CStr → List CStr → Option CStr
  | false, [], _ => some []
  | true, [], _ => none
  | false, c :: cs, args =>
    if c = 37 then g_strdup_printf true cs args
    else (g_strdup_printf false cs args).map (c :: ·)
  | true, c :: cs, args =>
    if c = 37 then (g_strdup_printf false cs args).map (37 :: ·)
    else if c = 115 then
      match args with
      | [] => none
      | a :: rest => (g_strdup_printf false cs rest).map (a ++ ·)
    else none

/-- What the routine emitted by `generate_source` appends to the response
body, `tmpl_var` being the answers of `balde_response_get_tmpl_var`. -/
def render (template_source : CStr) (tmpl_var : CStr → CStr) : Option CStr :=
  let format := c_string_literal .text (final_source template_source)
  if template_variables template_source = [] then some format
  else g_strdup_printf false format ((template_variables template_source).map tmpl_var)

/-! ## `get_template_name` -/

/-- GLib `g_path_get_basename` with `/` as the directory separator. -/
def g_path_get_basename (file_name : CStr) : CStr :=
  if file_name = [] then ascii "."
  else
    let r := file_name.reverse.dropWhile (· = 47)
    if r = [] then ascii "/" else (r.takeWhile (· ≠ 47)).reverse

/-- The first loop of `get_template_name`, entered with `i`: the name is cut
at the first index `i, i-1, ..., 1` that holds a `.`; index 0 is not looked
at.  Index `strlen` holds the terminating NUL. -/
def strip_suffix_loop (template_name : CStr) : Nat → CStr
  | 0 => template_name
  | i + 1 =>
    if template_name.getD (i + 1) 0 = 46 then template_name.take (i + 1)
    else strip_suffix_loop template_name i

/-- The second loop of `get_template_name`: every byte that is not a letter
becomes `_`. -/
def replace_non_alpha (template_name : CStr) : CStr :=
  template_name.map (fun c => if g_ascii_isalpha c then c else 95)

/-- The function `get_template_name`. -/
def get_template_name (template_basename : CStr) : CStr :=
  let template_name := g_path_get_basename template_basename
  replace_non_alpha (strip_suffix_loop template_name template_name.length)

/-! ## `resources.c`

A resource bundle (`GResource`) is seen through the two calls the walker
makes: `g_resource_enumerate_children` on a path, which fails or lists child
names in some order, and `g_resource_get_info` on a child's path, which
succeeds for a leaf.  A finite bundle is the tree of these answers below `/`. -/

/-- A `GError`, reduced to its code. -/
abbrev GError := Nat

mutual
/-- The answer of `g_resource_enumerate_children` for a path: an error, or the
child names in the order the bundle lists them. -/
inductive Enumeration where
  | failure (e : GError)
  | names (cs : Children)
/-- A NULL-terminated array of child names, each with the node found at the
child's path. -/
inductive Children where
  | nil
  | cons (name : CStr) (node : Node) (rest : Children)
/-- The node at a child's path: a leaf, for which `g_resource_get_info`
succeeds, or a node that is not a leaf, with the answer to enumerating it. -/
inductive Node where
  | leaf
  | inner (sub : Enumeration)
end

/-- The sign of GLib `g_strcmp0` on two strings (neither is `NULL`): `strcmp`,
which compares byte by byte, a proper prefix being smaller. -/
def g_strcmp0 : CStr → CStr → Int
  | [], [] => 0
  | [], _ :: _ => -1
  | _ :: _, [] => 1
  | a :: as, b :: bs => if a < b then -1 else if b < a then 1 else g_strcmp0 as bs

/-- GLib `g_slist_insert_sorted` with `g_strcmp0`: the data goes before the
first element it is not greater than, or at the end. -/
def g_slist_insert_sorted (data : CStr) : List CStr → List CStr
  | [] => [data]
  | e :: es =>
    if g_strcmp0 data e > 0 then e :: g_slist_insert_sorted data es
    else data :: e :: es

/-- The two in/out parameters of `balde_resources_list_childrens`: the list
being built and the error slot. -/
structure WalkState where
  list : List CStr
  error : Option GError
  deriving DecidableEq

mutual
/-- The function `balde_resources_list_childrens` on a path whose enumeration
answers `enum`.  The guard `g_return_if_fail (error == NULL || *error == NULL)`
returns at once when the error slot is already set (GLib checks enabled). -/
def balde_resources_list_childrens : Enumeration → CStr → WalkState → WalkState
  | .failure e, _, st =>
    if st.error.isSome then st else { st with error := some e }
  | .names cs, path, st =>
    if st.error.isSome then st else list_childrens_loop cs path st
/-- The `for` loop of `balde_resources_list_childrens` over the child names;
nothing is tested after the recursive call, the loop goes on to the next
name. -/
def list_childrens_loop : Children → CStr → WalkState → WalkState
  | .nil, _, st => st
  | .cons name node rest, path, st =>
    list_childrens_loop rest path (list_childrens_child node (path ++ name) st)
/-- The body of the loop for the path `child`: a leaf is inserted in order,
another node is walked. -/
def list_childrens_child : Node → CStr → WalkState → WalkState
  | .leaf, child, st => { st with list := g_slist_insert_sorted child st.list }
  | .inner sub, child, st => balde_resources_list_childrens sub child st
end

/-- The function `balde_resources_list_files`: `NULL` with the error when the
walk left one, the list as an array otherwise. -/
def balde_resources_list_files (resources : Enumeration) : Except GError (List CStr) :=
  let st := balde_resources_list_childrens resources (ascii "/") { list := [], error := none }
  match st.error with
  | some e => .error e
  | none => .ok st.list

mutual
/-- The leaf paths below a path, in the order the walk meets them. -/
def enumeration_leaves : Enumeration → CStr → List CStr
  | .failure _, _ => []
  | .names cs, path => children_leaves cs path
/-- The leaf paths below the listed children. -/
def children_leaves : Children → CStr → List CStr
  | .nil, _ => []
  | .cons name node rest, path => node_leaves node (path ++ name) ++ children_leaves rest path
/-- The leaf paths at or below a node. -/
def node_leaves : Node → CStr → List CStr
  | .leaf, child => [child]
  | .inner sub, child => enumeration_leaves sub child
end

mutual
/-- No enumeration fails in the tree. -/
def enumeration_ok : Enumeration → Bool
  | .failure _ => false
  | .names cs => children_ok cs
/-- No enumeration fails below the listed children. -/
def children_ok : Children → Bool
  | .nil => true
  | .cons _ node rest => node_ok node && children_ok rest
/-- No enumeration fails at or below the node. -/
def node_ok : Node → Bool
  | .leaf => true
  | .inner sub => enumeration_ok sub
end

/-- Two child arrays with the same entries listed in another order, the
children of inner nodes being reordered in turn. -/
inductive Children.Reorder : Children → Children → Prop
  | nil : Children.Reorder .nil .nil
  | cons (name : CStr) (node : Node) {r s : Children} :
      Children.Reorder r s → Children.Reorder (.cons name node r) (.cons name node s)
  | inner (name : CStr) {cs ds r s : Children} :
      Children.Reorder cs ds → Children.Reorder r s →
      Children.Reorder (.cons name (.inner (.names cs)) r) (.cons name (.inner (.names ds)) s)
  | swap (n m : CStr) (a b : Node) (r : Children) :
      Children.Reorder (.cons n a (.cons m b r)) (.cons m b (.cons n a r))
  | trans {r s t : Children} :
      Children.Reorder r s → Children.Reorder s t → Children.Reorder r t

/-- Two bundles that differ only in the order in which child names are
listed, at any depth. -/
inductive Enumeration.Reorder : Enumeration → Enumeration → Prop
  | failure (e : GError) : Enumeration.Reorder (.failure e) (.failure e)
  | names {cs ds : Children} :
      Children.Reorder cs ds → Enumeration.Reorder (.names cs) (.names ds)

/-- The order `g_strcmp0 a b ≤ 0` on strings. -/
def strLe (a b : CStr) : Prop := g_strcmp0 a b ≤ 0


mutual
/-- The error of the first enumeration that fails, in the order of the walk;
`none` when no enumeration fails. -/
def enumeration_first_failure : Enumeration → Option GError
  | .failure e => some e
  | .names cs => children_first_failure cs
/-- The first failing enumeration below the listed children. -/
def children_first_failure : Children → Option GError
  | .nil => none
  | .cons _ node rest =>
    match node_first_failure node with
    | some e => some e
    | none => children_first_failure rest
/-- The first failing enumeration at or below a node. -/
def node_first_failure : Node → Option GError
  | .leaf => none
  | .inner sub => enumeration_first_failure sub
end

/-- The child array lists `name`, and the node at that child's path is
`node`. -/
inductive ChildAt : Children → CStr → Node → Prop
  | here (name : CStr) (node : Node) (rest : Children) :
      ChildAt (.cons name node rest) name node
  | later (name : CStr) (node : Node) {rest : Children} {n : CStr} {nd : Node} :
      ChildAt rest n nd → ChildAt (.cons name node rest) n nd

/-- The path `q` is a leaf below the path `p` whose enumeration answers `e`:
it is `p` followed by child names along a chain of successful enumerations,
the last name being that of a leaf. -/
inductive LeafBelow : Enumeration → CStr → CStr → Prop
  | leaf {cs : Children} {name : CStr} (p : CStr) :
      ChildAt cs name .leaf → LeafBelow (.names cs) p (p ++ name)
  | inner {cs : Children} {name : CStr} {sub : Enumeration} {p q : CStr} :
      ChildAt cs name (.inner sub) → LeafBelow sub (p ++ name) q →
      LeafBelow (.names cs) p q

/-- The path `q` is a node that is not a leaf below the path `p` whose
enumeration answers `e`. -/
inductive InnerBelow : Enumeration → CStr → CStr → Prop
  | here {cs : Children} {name : CStr} {sub : Enumeration} (p : CStr) :
      ChildAt cs name (.inner sub) → InnerBelow (.names cs) p (p ++ name)
  | inner {cs : Children} {name : CStr} {sub : Enumeration} {p q : CStr} :
      ChildAt cs name (.inner sub) → InnerBelow sub (p ++ name) q →
      InnerBelow (.names cs) p q

/-! ## `balde_resources_load`

The types `balde_resource_t` and `balde_app_t` are declared in headers of the
repository that are not among the sources at hand (`balde/resources-private.h`,
`balde/app.h`); the fields `balde_resources_load` touches are modelled below. -/

/-- Modelled from the spec: the type `balde_resource_t` (Resource Record), whose
declaration is missing: a name, a content, and a type that may be unset
(`NULL`). -/
structure balde_resource_t where
  name : CStr
  content : CStr
  type : Option CStr
  deriving DecidableEq

/-- Modelled from the spec: the two fields of `balde_app_t`, whose declaration
is missing, that `balde_resources_load` touches: the ordered resource table
(a `GSList`) and the error slot (`NULL` when empty). -/
structure balde_app_t where
  static_resources : List balde_resource_t
  error : Option GError
  deriving DecidableEq

/-- A resource bundle as `balde_resources_load` sees it: the tree of answers
the walker gets, and `g_resource_lookup_data`, which fails or gives the bytes
of the resource at a path. -/
structure GResource where
  tree : Enumeration
  lookup_data : CStr → Except GError (List Nat)

/-- GLib `g_propagate_error`: the error is stored when the destination is
empty; a destination that already holds an error keeps it. -/
def g_propagate_error (dest : Option GError) (src : GError) : Option GError :=
  match dest with
  | none => some src
  | some d => some d

/-- GLib `g_strndup (str, n)`, read as a C string: at most `n` bytes of `str`
are copied, the copy stops at a zero byte, and a NUL ends the result. -/
def g_strndup (str : List Nat) (n : Nat) : CStr :=
  (str.take n).takeWhile (· ≠ 0)

/-- What a call of `balde_resources_load` leaves behind: the application
state, and two records of what it did: the paths handed to
`g_resource_lookup_data`, in order, and the errors stored into `app->error`,
in order. -/
structure LoadRun where
  app : balde_app_t
  lookups : List CStr
  error_writes : List GError
  deriving DecidableEq

/-- The `for` loop of `balde_resources_load` over `resources_list`; `seen`
holds the paths looked up so far. -/
def load_loop (resources : GResource) : List CStr → balde_app_t → List CStr → LoadRun
  | [], app, seen => { app := app, lookups := seen, error_writes := [] }
  | path :: rest, app, seen =>
    match resources.lookup_data path with
    | .error e =>
      { app := { app with error := g_propagate_error app.error e },
        lookups := seen ++ [path],
        error_writes := if app.error.isNone then [e] else [] }
    | .ok data =>
      load_loop resources rest
        { app with static_resources := app.static_resources ++
            [{ name := path, content := g_strndup data data.length, type := none }] }
        (seen ++ [path])

/-- The function `balde_resources_load`.  The guard
`g_return_if_fail (app->error == NULL)` returns at once when the slot is set
(GLib checks enabled). -/
def balde_resources_load (app : balde_app_t) (resources : GResource) : LoadRun :=
  if app.error.isSome then { app := app, lookups := [], error_writes := [] }
  else
    match balde_resources_list_files resources.tree with
    | .error e =>
      { app := { app with error := g_propagate_error app.error e },
        lookups := [],
        error_writes := if app.error.isNone then [e] else [] }
    | .ok resources_list => load_loop resources resources_list app []

/-- The record `balde_resources_load` builds for a path whose lookup gives the
bytes `data`: the path as name, the bytes as a length-bounded string, no
type. -/
def record_of (path : CStr) (data : List Nat) : balde_resource_t :=
  { name := path, content := g_strndup data data.length, type := none }

/-- The record for a path of the bundle, empty for a path whose lookup
fails. -/
def record_for (resources : GResource) (path : CStr) : balde_resource_t :=
  match resources.lookup_data path with
  | .ok data => record_of path data
  | .error _ => record_of path []

/-- The error of the first lookup that fails among the paths, in order. -/
def first_lookup_failure (resources : GResource) : List CStr → Option GError
  | [] => none
  | path :: rest =>
    match resources.lookup_data path with
    | .error e => some e
    | .ok _ => first_lookup_failure resources rest

/-- The first failure a load meets: the first failing enumeration of the walk
or, when the walk succeeds, the first failing lookup along the sorted paths. -/
def first_load_failure (resources : GResource) : Option GError :=
  match balde_resources_list_files resources.tree with
  | .error e => some e
  | .ok resources_list => first_lookup_failure resources resources_list

/-! ## `main` of `balde-template-gen.c` -/

/-- The function `generate_header`. -/
def generate_header (template_name : CStr) : CStr :=
  ascii "// WARNING: this file was generated automatically by balde-template-gen\n\n#ifndef __"
    ++ template_name ++ ascii "_balde_template\n#define __"
    ++ template_name ++ ascii "_balde_template\n\n#include <balde.h>\n\nconst gchar *balde_template_"
    ++ template_name ++ ascii "_format;\nvoid balde_template_"
    ++ template_name ++ ascii "(balde_response_t *response);\n\n#endif\n"

/-- GLib `g_str_has_suffix`: the last bytes of `str` are `suffix`. -/
def g_str_has_suffix (str suffix : CStr) : Bool :=
  suffix.length ≤ str.length && str.drop (str.length - suffix.length) = suffix

/-- The file system as `main` sees it: what `g_file_get_contents` reads at a
path (`none` when it fails), and whether `g_file_set_contents` succeeds at a
path. -/
structure FileSystem where
  contents : CStr → Option (List Nat)
  writable : CStr → Bool

/-- A call `main` makes on the file system: `g_file_get_contents` on a path, or
`g_file_set_contents` on a path with a text. -/
inductive FsCall where
  | get_contents (path : CStr)
  | set_contents (path : CStr) (text : CStr)
  deriving DecidableEq

/-- The file system after a successful `g_file_set_contents`. -/
def FileSystem.set (fs : FileSystem) (path text : CStr) : FileSystem :=
  { fs with contents := fun q => if q = path then some text else fs.contents q }

/-- What a run of `main` leaves behind: the exit status, the file system, and
the calls made on the file system, in order. -/
structure MainRun where
  status : Nat
  fs : FileSystem
  calls : List FsCall

/-- The value of `EXIT_SUCCESS`. -/
def EXIT_SUCCESS : Nat := 0

/-- The value of `EXIT_FAILURE`. -/
def EXIT_FAILURE : Nat := 1

/-- The end of `main` from the call of `g_file_set_contents (argv[2], source, -1)`
on; `calls` holds the calls made before. -/
def main_write (fs : FileSystem) (output source : CStr) (calls : List FsCall) : MainRun :=
  if fs.writable output then
    { status := EXIT_SUCCESS, fs := fs.set output source,
      calls := calls ++ [.set_contents output source] }
  else
    { status := EXIT_FAILURE, fs := fs, calls := calls ++ [.set_contents output source] }

/-- The function `main`, `argv` holding `argc` strings.  The file read is a
byte sequence; `generate_source` takes it as a C string, up to its first zero
byte. -/
def main (argv : List CStr) (fs : FileSystem) : MainRun :=
  match argv with
  | [_, input, output] =>
    let template_name := get_template_name output
    if g_str_has_suffix output (ascii ".c") then
      match fs.contents input with
      | none => { status := EXIT_FAILURE, fs := fs, calls := [.get_contents input] }
      | some template_source =>
        main_write fs output
          (generate_source template_name (template_source.takeWhile (· ≠ 0)))
          [.get_contents input]
    else if g_str_has_suffix output (ascii ".h") then
      main_write fs output (generate_header template_name) []
    else { status := EXIT_FAILURE, fs := fs, calls := [] }
  | _ => { status := EXIT_FAILURE, fs := fs, calls := [] }

/-! ## The meaning of a template -/

/-- Following the specification: the template with each placeholder occurrence
`{{ *v *}}`, found from left to right, replaced by the value of its variable
`v`, every other byte kept.  `skip` counts the bytes of the last placeholder
still to be passed over. -/
def expand_template (tmpl_var : CStr → CStr) : Nat → CStr → CStr
  | _, [] => []
  | skip + 1, _ :: cs => expand_template tmpl_var skip cs
  | 0, c :: cs =>
    match re_variable (c :: cs) with
    | some (v, len) => tmpl_var v ++ expand_template tmpl_var (len - 1) cs
    | none => c :: expand_template tmpl_var 0 cs

/-! ## The matcher -/

theorem rstar_greedy {α : Type} (p : Nat → Bool) (k : CStr → Option α)
    (hk : ∀ x xs, p x = true → k (x :: xs) = none) (s : CStr) :
    rstar p k s = k (s.dropWhile p) := by
  induction s with
  | nil => rfl
  | cons x xs ih =>
    by_cases hp : p x = true
    · simp only [rstar, hp, if_true, List.dropWhile_cons_of_pos, ih]
      cases h : k (List.dropWhile p xs) with
      | some r => rfl
      | none => exact hk x xs hp
    · simp [rstar, hp, List.dropWhile]

theorem isSpaceByte_iff (c : Nat) : isSpaceByte c = true ↔ c = 32 := by
  simp [isSpaceByte]

theorem isIdentByte_ne_space {c : Nat} (h : isIdentByte c = true) : c ≠ 32 := by
  intro hc; subst hc; revert h; decide

theorem isIdentByte_ne_close {c : Nat} (h : isIdentByte c = true) : c ≠ 125 := by
  intro hc; subst hc; revert h; decide

theorem isalpha_isIdentByte {c : Nat} (h : g_ascii_isalpha c = true) : isIdentByte c = true := by
  simp [isIdentByte, h]
/-- The deterministic reading of `re_variable`: every repetition takes its
longest run. -/
theorem re_variable_unfold (s : CStr) :
    re_variable s =
      rlit 123 (rlit 123 (fun s1 =>
        rclass g_ascii_isalpha (fun s3 =>
          rlit 125 (rlit 125 (fun rest =>
            some ((s1.dropWhile isSpaceByte).take
                ((s1.dropWhile isSpaceByte).length - (s3.dropWhile isIdentByte).length),
              s.length - rest.length)))
            ((s3.dropWhile isIdentByte).dropWhile isSpaceByte))
          (s1.dropWhile isSpaceByte))) s := by
  unfold re_variable
  congr 2
  funext s1
  congr 1
  funext s1
  rw [rstar_greedy]
  · congr 1
    funext s3
    rw [rstar_greedy]
    · rw [rstar_greedy]
      intro x xs hx
      have := (isSpaceByte_iff x).1 hx
      subst this
      rfl
    · intro x xs hx
      have h1 : isSpaceByte x = false := by
        have := isIdentByte_ne_space hx
        simp [isSpaceByte, this]
      have h2 := isIdentByte_ne_close hx
      simp [rstar, h1, rlit, h2]
  · intro x xs hx
    have := (isSpaceByte_iff x).1 hx
    subst this
    rfl

theorem dropWhile_append_of_all (p : Nat → Bool) (l1 l2 : CStr)
    (h : ∀ x ∈ l1, p x = true) : (l1 ++ l2).dropWhile p = l2.dropWhile p := by
  induction l1 with
  | nil => rfl
  | cons x xs ih =>
    have hx := h x (List.mem_cons_self _ _)
    simp only [List.cons_append, List.dropWhile_cons_of_pos hx]
    exact ih (fun y hy => h y (List.mem_cons_of_mem _ hy))

theorem takeWhile_space_eq (l : CStr) :
    l.takeWhile isSpaceByte = List.replicate (l.takeWhile isSpaceByte).length 32 := by
  rw [List.eq_replicate_iff]
  refine ⟨rfl, fun x hx => ?_⟩
  exact (isSpaceByte_iff x).1 (List.mem_takeWhile_imp hx)

/-- A list splits into its longest run of spaces and the rest. -/
theorem split_spaces (l : CStr) :
    ∃ a, l = List.replicate a 32 ++ l.dropWhile isSpaceByte :=
  ⟨(l.takeWhile isSpaceByte).length, by
    rw [← takeWhile_space_eq]; exact (List.takeWhile_append_dropWhile _ _).symm⟩

/-- A list splits into its longest run of identifier bytes and the rest. -/
theorem split_ident (l : CStr) :
    ∃ tw, (∀ x ∈ tw, isIdentByte x = true) ∧ l = tw ++ l.dropWhile isIdentByte :=
  ⟨l.takeWhile isIdentByte, fun _ hx => List.mem_takeWhile_imp hx,
    (List.takeWhile_append_dropWhile _ _).symm⟩

theorem placeholder_length (a : Nat) (v : CStr) (b : Nat) :
    (placeholder a v b).length = 4 + a + v.length + b := by
  simp [placeholder]; omega

/-- A successful match of `re_variable` is a placeholder at the start of the
subject, its group 1 is the identifier, and its length is the placeholder's. -/
theorem re_variable_sound {s g : CStr} {n : Nat} (h : re_variable s = some (g, n)) :
    ∃ a b rest, isIdentifier g = true ∧ s = placeholder a g b ++ rest ∧
      n = (placeholder a g b).length := by
  rw [re_variable_unfold] at h
  match s, h with
  | 123 :: 123 :: s1, h =>
    simp only [rlit, if_true] at h
    obtain ⟨a, e1⟩ := split_spaces s1
    generalize hg0 : s1.dropWhile isSpaceByte = g0 at h e1
    match g0, h with
    | c :: s3, h =>
      simp only [rclass] at h
      by_cases hc : g_ascii_isalpha c = true
      · simp only [hc, if_true] at h
        obtain ⟨tw, htw, e3⟩ := split_ident s3
        obtain ⟨b, e4⟩ := split_spaces (s3.dropWhile isIdentByte)
        generalize hdw : s3.dropWhile isIdentByte = dw at h e3 e4
        generalize hg2 : dw.dropWhile isSpaceByte = g2 at h e4
        match g2, h with
        | 125 :: 125 :: rest, h =>
          simp only [rlit, if_true, Option.some.injEq, Prod.mk.injEq] at h
          obtain ⟨hg, hn⟩ := h
          have hgv : g = c :: tw := by
            rw [← hg, e3, ← List.cons_append]
            apply List.take_left'
            simp; omega
          subst hgv
          refine ⟨a, b, rest, ?_, ?_, ?_⟩
          · simp only [isIdentifier, hc, Bool.true_and, List.all_eq_true]
            exact htw
          · rw [e1, e3, e4]; simp [placeholder]
          · rw [← hn, e1, e3, e4]; simp [placeholder]; omega
      · simp [hc] at h

/-- The pattern `re_variable` matches a placeholder at the start of the
subject, whatever follows it. -/
theorem re_variable_complete (a b : Nat) (v rest : CStr) (hv : isIdentifier v = true) :
    re_variable (placeholder a v b ++ rest) = some (v, (placeholder a v b).length) := by
  rw [re_variable_unfold]
  match v, hv with
  | c :: cs, hv =>
    simp only [isIdentifier, Bool.and_eq_true, List.all_eq_true] at hv
    obtain ⟨hc, hcs⟩ := hv
    have hcsp : isSpaceByte c = false := by
      have := isIdentByte_ne_space (isalpha_isIdentByte hc)
      simp [isSpaceByte, this]
    have d1 : (List.replicate a 32 ++ c :: (cs ++ (List.replicate b 32 ++ 125 :: 125 :: rest))).dropWhile
        isSpaceByte = c :: (cs ++ (List.replicate b 32 ++ 125 :: 125 :: rest)) := by
      rw [dropWhile_append_of_all]
      · simp [List.dropWhile, hcsp]
      · intro x hx; rw [List.eq_of_mem_replicate hx]; rfl
    have d2 : (cs ++ (List.replicate b 32 ++ 125 :: 125 :: rest)).dropWhile isIdentByte
        = List.replicate b 32 ++ 125 :: 125 :: rest := by
      rw [dropWhile_append_of_all _ _ _ hcs]
      cases b with
      | zero => rfl
      | succ b => rfl
    have d3 : (List.replicate b 32 ++ 125 :: 125 :: rest).dropWhile isSpaceByte
        = 125 :: 125 :: rest := by
      rw [dropWhile_append_of_all]
      · rfl
      · intro x hx; rw [List.eq_of_mem_replicate hx]; rfl
    simp only [placeholder, List.cons_append, List.nil_append, List.append_assoc, rlit, if_true,
      d1, rclass, hc, d2, d3]
    refine congrArg some (Prod.ext ?_ ?_)
    · show List.take _ _ = _
      rw [← List.cons_append]
      apply List.take_left'
      simp; omega
    · show _ - _ = _
      simp; omega

/-! ## The replacement scan -/

theorem regex_replace_skip (re : CStr → Option (CStr × Nat)) (repl : CStr) (k : Nat) (s : CStr) :
    regex_replace re repl k s = regex_replace re repl 0 (s.drop k) := by
  induction s generalizing k with
  | nil => cases k <;> rfl
  | cons c cs ih =>
    cases k with
    | zero => rfl
    | succ k => simp only [regex_replace, List.drop_succ_cons]; exact ih k

theorem regex_replace_none (re : CStr → Option (CStr × Nat)) (repl : CStr) (c : Nat) (cs : CStr)
    (h : re (c :: cs) = none) :
    regex_replace re repl 0 (c :: cs) =
      (c :: (regex_replace re repl 0 cs).1, (regex_replace re repl 0 cs).2) := by
  simp only [regex_replace, h]

theorem regex_replace_some (re : CStr → Option (CStr × Nat)) (repl : CStr) (c : Nat) (cs g : CStr)
    (len : Nat) (h : re (c :: cs) = some (g, len)) :
    regex_replace re repl 0 (c :: cs) =
      (repl ++ (regex_replace re repl 0 (cs.drop (len - 1))).1,
        g :: (regex_replace re repl 0 (cs.drop (len - 1))).2) := by
  simp only [regex_replace, h]
  rw [regex_replace_skip]

/-- No group is recorded exactly when the pattern matches at no offset; the
subject is then copied unchanged. -/
theorem regex_replace_nil_iff (re : CStr → Option (CStr × Nat)) (repl : CStr) (s : CStr) :
    (regex_replace re repl 0 s).2 = [] ↔
      ∀ w c u, s = w ++ c :: u → re (c :: u) = none := by
  induction s with
  | nil =>
    constructor
    · intro _ w c u h; simp at h
    · intro _; rfl
  | cons x xs ih =>
    constructor
    · intro h
      cases hre : re (x :: xs) with
      | some r =>
        obtain ⟨g, len⟩ := r
        rw [regex_replace_some re repl x xs g len hre] at h
        simp at h
      | none =>
        rw [regex_replace_none re repl x xs hre] at h
        intro w c u hw
        cases w with
        | nil =>
          simp only [List.nil_append, List.cons.injEq] at hw
          rw [← hw.1, ← hw.2]; exact hre
        | cons y w =>
          simp only [List.cons_append, List.cons.injEq] at hw
          exact (ih.1 h) w c u hw.2
    · intro h
      have hre := h [] x xs rfl
      rw [regex_replace_none re repl x xs hre]
      exact ih.2 (fun w c u hw => h (x :: w) c u (by rw [hw]; rfl))

theorem regex_replace_id (re : CStr → Option (CStr × Nat)) (repl : CStr) (s : CStr)
    (h : (regex_replace re repl 0 s).2 = []) : (regex_replace re repl 0 s).1 = s := by
  induction s with
  | nil => rfl
  | cons x xs ih =>
    have hall := (regex_replace_nil_iff re repl (x :: xs)).1 h
    have hre := hall [] x xs rfl
    rw [regex_replace_none re repl x xs hre] at h ⊢
    simp only [List.cons.injEq, true_and]
    exact ih h

theorem re_variable_head {c : Nat} {cs : CStr} (hc : c ≠ 123) : re_variable (c :: cs) = none := by
  simp [re_variable, rlit, hc]

/-- A prefix without `{` is copied by the scan for `re_variable`. -/
theorem regex_replace_variable_prefix (repl a s : CStr) (ha : 123 ∉ a) :
    regex_replace re_variable repl 0 (a ++ s) =
      (a ++ (regex_replace re_variable repl 0 s).1, (regex_replace re_variable repl 0 s).2) := by
  induction a with
  | nil => rfl
  | cons x xs ih =>
    have hx : x ≠ 123 := fun h => ha (by simp [h])
    have hxs : 123 ∉ xs := fun h => ha (List.mem_cons_of_mem _ h)
    rw [List.cons_append, regex_replace_none _ _ _ _ (re_variable_head hx), ih hxs]
    rfl

/-- A placeholder at the start of the subject is replaced and its identifier
recorded; the scan resumes right after it. -/
theorem regex_replace_variable_placeholder (repl : CStr) (a b : Nat) (v rest : CStr)
    (hv : isIdentifier v = true) :
    regex_replace re_variable repl 0 (placeholder a v b ++ rest) =
      (repl ++ (regex_replace re_variable repl 0 rest).1,
        v :: (regex_replace re_variable repl 0 rest).2) := by
  have hm := re_variable_complete a b v rest hv
  have hcons : ∃ tl, placeholder a v b = 123 :: tl := ⟨_, rfl⟩
  obtain ⟨tl, htl⟩ := hcons
  have hlen : tl.length = (placeholder a v b).length - 1 := by rw [htl]; simp
  rw [htl] at hm ⊢
  rw [List.cons_append] at hm ⊢
  rw [regex_replace_some _ _ _ _ _ _ hm]
  have : (tl ++ rest).drop ((123 :: tl).length - 1) = rest := by
    simp
  rw [this]

/-! ## The escaped text -/

theorem re_percent_cons (c : Nat) (cs : CStr) :
    re_percent (c :: cs) = if c = 37 then some ([], 1) else none := by
  simp [re_percent, rlit]

theorem regex_replace_percent_append (repl a b : CStr) :
    (regex_replace re_percent repl 0 (a ++ b)).1 =
      (regex_replace re_percent repl 0 a).1 ++ (regex_replace re_percent repl 0 b).1 := by
  induction a with
  | nil => rfl
  | cons x xs ih =>
    by_cases hx : x = 37
    · have h1 : ∀ t, re_percent (x :: t) = some ([], 1) := fun t => by
        rw [re_percent_cons, if_pos hx]
      rw [List.cons_append, regex_replace_some _ _ _ _ _ _ (h1 _),
        regex_replace_some _ _ _ _ _ _ (h1 _)]
      simp only [Nat.sub_self, List.drop_zero, List.append_assoc]
      rw [ih]
    · have h1 : ∀ t, re_percent (x :: t) = none := fun t => by
        rw [re_percent_cons, if_neg hx]
      rw [List.cons_append, regex_replace_none _ _ _ _ (h1 _),
        regex_replace_none _ _ _ _ (h1 _)]
      simp only [List.cons_append]
      rw [ih]

theorem g_strescape_append (a b : CStr) :
    g_strescape (a ++ b) = g_strescape a ++ g_strescape b := by
  induction a with
  | nil => rfl
  | cons x xs ih =>
    show escape_byte x ++ g_strescape (xs ++ b) = (escape_byte x ++ g_strescape xs) ++ g_strescape b
    rw [ih, List.append_assoc]

theorem escaped_perc_source_append (a b : CStr) :
    escaped_perc_source (a ++ b) = escaped_perc_source a ++ escaped_perc_source b := by
  simp only [escaped_perc_source, g_strescape_append, regex_replace_percent_append]

theorem escaped_perc_source_cons (c : Nat) (t : CStr) :
    escaped_perc_source (c :: t) = escaped_perc_source [c] ++ escaped_perc_source t :=
  escaped_perc_source_append [c] t

/-- The ten branches of `escape_byte`. -/
theorem escape_byte_cases (c : Nat) :
    (c = 8 ∧ escape_byte c = [92, 98]) ∨ (c = 12 ∧ escape_byte c = [92, 102]) ∨
    (c = 10 ∧ escape_byte c = [92, 110]) ∨ (c = 13 ∧ escape_byte c = [92, 114]) ∨
    (c = 9 ∧ escape_byte c = [92, 116]) ∨ (c = 11 ∧ escape_byte c = [92, 118]) ∨
    (c = 92 ∧ escape_byte c = [92, 92]) ∨ (c = 34 ∧ escape_byte c = [92, 34]) ∨
    ((c < 32 ∨ 127 ≤ c) ∧
      escape_byte c = [92, 48 + (c / 64) % 8, 48 + (c / 8) % 8, 48 + c % 8]) ∨
    (32 ≤ c ∧ c < 127 ∧ c ≠ 92 ∧ c ≠ 34 ∧ escape_byte c = [c]) := by
  by_cases h1 : c = 8
  · subst h1; exact Or.inl ⟨rfl, by decide⟩
  by_cases h2 : c = 12
  · subst h2; exact Or.inr (Or.inl ⟨rfl, by decide⟩)
  by_cases h3 : c = 10
  · subst h3; exact Or.inr (Or.inr (Or.inl ⟨rfl, by decide⟩))
  by_cases h4 : c = 13
  · subst h4; exact Or.inr (Or.inr (Or.inr (Or.inl ⟨rfl, by decide⟩)))
  by_cases h5 : c = 9
  · subst h5; exact Or.inr (Or.inr (Or.inr (Or.inr (Or.inl ⟨rfl, by decide⟩))))
  by_cases h6 : c = 11
  · subst h6; exact Or.inr (Or.inr (Or.inr (Or.inr (Or.inr (Or.inl ⟨rfl, by decide⟩)))))
  by_cases h7 : c = 92
  · subst h7; exact Or.inr (Or.inr (Or.inr (Or.inr (Or.inr (Or.inr (Or.inl ⟨rfl, by decide⟩))))))
  by_cases h8 : c = 34
  · subst h8
    exact Or.inr (Or.inr (Or.inr (Or.inr (Or.inr (Or.inr (Or.inr (Or.inl ⟨rfl, by decide⟩)))))))
  have hrest : escape_byte c =
      if c < 32 ∨ 127 ≤ c then [92, 48 + (c / 64) % 8, 48 + (c / 8) % 8, 48 + c % 8] else [c] := by
    unfold escape_byte
    rw [if_neg h1, if_neg h2, if_neg h3, if_neg h4, if_neg h5, if_neg h6, if_neg h7, if_neg h8]
  by_cases h9 : c < 32 ∨ 127 ≤ c
  · rw [if_pos h9] at hrest
    exact Or.inr (Or.inr (Or.inr (Or.inr (Or.inr (Or.inr (Or.inr (Or.inr (Or.inl ⟨h9, hrest⟩))))))))
  · rw [if_neg h9] at hrest
    exact Or.inr (Or.inr (Or.inr (Or.inr (Or.inr (Or.inr (Or.inr (Or.inr (Or.inr
      ⟨by omega, by omega, h7, h8, hrest⟩))))))))

/-- The bytes an escape image can hold besides the byte itself: the backslash,
the letters and quote of the short escapes, and octal digits. -/
theorem escape_byte_mem {c x : Nat} (h : x ∈ escape_byte c) :
    x = c ∨ x = 92 ∨ x = 34 ∨ x = 98 ∨ x = 102 ∨ x = 110 ∨ x = 114 ∨ x = 116 ∨ x = 118 ∨
      (48 ≤ x ∧ x ≤ 55) := by
  rcases escape_byte_cases c with ⟨_, e⟩ | ⟨_, e⟩ | ⟨_, e⟩ | ⟨_, e⟩ | ⟨_, e⟩ | ⟨_, e⟩ | ⟨_, e⟩ |
    ⟨_, e⟩ | ⟨_, e⟩ | ⟨_, _, _, _, e⟩
  all_goals
    rw [e] at h
    simp only [List.mem_cons, List.mem_singleton, List.not_mem_nil, or_false] at h
    omega

theorem regex_replace_percent_id (repl s : CStr) (h : 37 ∉ s) :
    (regex_replace re_percent repl 0 s).1 = s := by
  induction s with
  | nil => rfl
  | cons x xs ih =>
    have hx : x ≠ 37 := fun e => h (by simp [e])
    have h1 : re_percent (x :: xs) = none := by rw [re_percent_cons, if_neg hx]
    rw [regex_replace_none _ _ _ _ h1]
    simp only [List.cons.injEq, true_and]
    exact ih (fun e => h (List.mem_cons_of_mem _ e))

/-- The image of one template byte in the escaped text: `%%` for `%`, the
`g_strescape` image otherwise. -/
theorem escaped_perc_source_byte (c : Nat) :
    escaped_perc_source [c] = if c = 37 then [37, 37] else escape_byte c := by
  by_cases hc : c = 37
  · subst hc; rfl
  · rw [if_neg hc]
    simp only [escaped_perc_source, g_strescape, List.append_nil]
    apply regex_replace_percent_id
    intro h
    have := escape_byte_mem h
    omega

theorem isIdentByte_range {c : Nat} (h : isIdentByte c = true) :
    (65 ≤ c ∧ c ≤ 90) ∨ (97 ≤ c ∧ c ≤ 122) ∨ (48 ≤ c ∧ c ≤ 57) ∨ c = 95 := by
  simp only [isIdentByte, g_ascii_isalpha, Bool.or_eq_true, Bool.and_eq_true, decide_eq_true_eq] at h
  omega

theorem isPlaceholderByte_range {c : Nat} (h : isPlaceholderByte c = true) :
    c = 123 ∨ c = 125 ∨ c = 32 ∨ (65 ≤ c ∧ c ≤ 90) ∨ (97 ≤ c ∧ c ≤ 122) ∨ (48 ≤ c ∧ c ≤ 57)
      ∨ c = 95 := by
  simp only [isPlaceholderByte, Bool.or_eq_true, decide_eq_true_eq] at h
  rcases h with ((h | h) | h) | h
  · exact Or.inl h
  · exact Or.inr (Or.inl h)
  · exact Or.inr (Or.inr (Or.inl h))
  · have := isIdentByte_range h; omega

/-- A placeholder byte is its own image in the escaped text. -/
theorem escaped_perc_source_plain {c : Nat} (h : isPlaceholderByte c = true) :
    escaped_perc_source [c] = [c] := by
  have hr := isPlaceholderByte_range h
  rw [escaped_perc_source_byte, if_neg (by omega)]
  rcases escape_byte_cases c with ⟨_, e⟩ | ⟨_, e⟩ | ⟨_, e⟩ | ⟨_, e⟩ | ⟨_, e⟩ | ⟨_, e⟩ | ⟨_, e⟩ |
    ⟨_, e⟩ | ⟨_, e⟩ | ⟨_, _, _, _, e⟩
  all_goals first
    | exact e
    | omega

/-- The image of a byte is the byte alone, or it starts with a backslash or a
percent sign. -/
theorem escaped_perc_source_head (c : Nat) :
    escaped_perc_source [c] = [c] ∨
      ∃ h tl, escaped_perc_source [c] = h :: tl ∧ (h = 92 ∨ h = 37) := by
  rw [escaped_perc_source_byte]
  by_cases hc : c = 37
  · rw [if_pos hc]; exact Or.inr ⟨37, [37], rfl, Or.inr rfl⟩
  · rw [if_neg hc]
    rcases escape_byte_cases c with ⟨_, e⟩ | ⟨_, e⟩ | ⟨_, e⟩ | ⟨_, e⟩ | ⟨_, e⟩ | ⟨_, e⟩ |
      ⟨_, e⟩ | ⟨_, e⟩ | ⟨_, e⟩ | ⟨_, _, _, _, e⟩
    all_goals first
      | exact Or.inl e
      | exact Or.inr ⟨92, _, e, Or.inl rfl⟩

/-- No image but that of `{` holds a `{`. -/
theorem escaped_perc_source_open {c : Nat} (h : 123 ∈ escaped_perc_source [c]) : c = 123 := by
  rw [escaped_perc_source_byte] at h
  by_cases hc : c = 37
  · rw [if_pos hc] at h; simp at h
  · rw [if_neg hc] at h
    have := escape_byte_mem h
    omega

theorem escaped_perc_source_all_plain (p : CStr) (hp : ∀ x ∈ p, isPlaceholderByte x = true) :
    escaped_perc_source p = p := by
  induction p with
  | nil => rfl
  | cons x xs ih =>
    rw [escaped_perc_source_cons, escaped_perc_source_plain (hp x (List.mem_cons_self _ _)),
      ih (fun y hy => hp y (List.mem_cons_of_mem _ hy))]
    rfl

/-- A `{` of the escaped text is the image of a `{` of the template. -/
theorem escaped_perc_source_split_open (t w q : CStr)
    (h : escaped_perc_source t = w ++ 123 :: q) :
    ∃ t1 t2, t = t1 ++ 123 :: t2 ∧ escaped_perc_source t1 = w ∧ escaped_perc_source t2 = q := by
  induction t generalizing w with
  | nil => exact absurd h (by cases w <;> simp [escaped_perc_source, g_strescape, regex_replace])
  | cons c t ih =>
    rw [escaped_perc_source_cons] at h
    rcases List.append_eq_append_iff.1 h with ⟨a', h1, h2⟩ | ⟨c', h1, h2⟩
    · -- the image of `c` ends inside `w`
      obtain ⟨t1, t2, e, e1, e2⟩ := ih a' h2
      refine ⟨c :: t1, t2, by rw [e]; rfl, ?_, e2⟩
      rw [escaped_perc_source_cons, e1, h1]
    · -- the `{` lies in the image of `c`
      cases c' with
      | nil =>
        simp only [List.append_nil, List.nil_append] at h1 h2
        obtain ⟨t1, t2, e, e1, e2⟩ := ih [] (by rw [← h2]; rfl)
        refine ⟨c :: t1, t2, by rw [e]; rfl, ?_, e2⟩
        rw [escaped_perc_source_cons, e1, h1]; simp
      | cons x c' =>
        simp only [List.cons_append, List.cons.injEq] at h2
        have hmem : 123 ∈ escaped_perc_source [c] := by
          rw [h1, ← h2.1]; simp
        have hc := escaped_perc_source_open hmem
        subst hc
        have himg : escaped_perc_source [123] = [123] := rfl
        rw [himg] at h1
        have hw : w = [] := by
          cases w with
          | nil => rfl
          | cons y w => simp at h1
        subst hw
        simp only [List.nil_append, List.cons.injEq] at h1
        obtain ⟨_, hc'⟩ := h1
        subst hc'
        refine ⟨[], t, rfl, rfl, ?_⟩
        rw [h2.2]; rfl

/-- A run of placeholder bytes at the start of the escaped text is the same
run at the start of the template. -/
theorem escaped_perc_source_split_plain (p t rest : CStr)
    (hp : ∀ x ∈ p, isPlaceholderByte x = true)
    (h : escaped_perc_source t = p ++ rest) :
    ∃ t3, t = p ++ t3 ∧ escaped_perc_source t3 = rest := by
  induction p generalizing t with
  | nil => exact ⟨t, rfl, h⟩
  | cons x p ih =>
    have hx := hp x (List.mem_cons_self _ _)
    have hxr := isPlaceholderByte_range hx
    cases t with
    | nil => simp [escaped_perc_source, g_strescape, regex_replace] at h
    | cons c t =>
      rw [escaped_perc_source_cons] at h
      rcases escaped_perc_source_head c with hc | ⟨hd, tl, hc, hhd⟩
      · rw [hc] at h
        simp only [List.cons_append, List.nil_append, List.cons.injEq] at h
        obtain ⟨t3, e, e3⟩ := ih t (fun y hy => hp y (List.mem_cons_of_mem _ hy)) h.2
        exact ⟨t3, by rw [h.1, e]; rfl, e3⟩
      · rw [hc] at h
        simp only [List.cons_append, List.cons.injEq] at h
        omega

/-! ## Placeholders of the template and matches in the escaped text -/

theorem placeholder_plain (a b : Nat) (v : CStr) (hv : isIdentifier v = true) :
    ∀ x ∈ placeholder a v b, isPlaceholderByte x = true := by
  intro x hx
  simp only [placeholder, List.mem_append, List.mem_cons, List.mem_singleton,
    List.not_mem_nil, or_false, List.mem_replicate] at hx
  have hid : ∀ y ∈ v, isIdentByte y = true := by
    match v, hv with
    | c :: cs, hv =>
      simp only [isIdentifier, Bool.and_eq_true, List.all_eq_true] at hv
      intro y hy
      rcases List.mem_cons.1 hy with e | e
      · rw [e]; exact isalpha_isIdentByte hv.1
      · exact hv.2 y e
  rcases hx with (((h | h) | h) | h) | h
  · rcases h with h | h <;> subst h <;> rfl
  · rw [h.2]; rfl
  · simp [isPlaceholderByte, hid x h]
  · rw [h.2]; rfl
  · rcases h with h | h <;> subst h <;> rfl

/-- The pattern `re_variable` matches somewhere in the escaped text exactly
when the template holds a placeholder. -/
theorem match_iff_hasPlaceholder (t : CStr) :
    (∃ w c u, escaped_perc_source t = w ++ c :: u ∧ re_variable (c :: u) ≠ none) ↔
      HasPlaceholder t := by
  constructor
  · rintro ⟨w, c, u, he, hm⟩
    cases hre : re_variable (c :: u) with
    | none => exact absurd hre hm
    | some r =>
      obtain ⟨g, n⟩ := r
      obtain ⟨a, b, rest, hg, hs, _⟩ := re_variable_sound hre
      have hp : ∃ tl, placeholder a g b = 123 :: tl := ⟨_, rfl⟩
      obtain ⟨tl, htl⟩ := hp
      rw [hs, htl, List.cons_append] at he
      obtain ⟨t1, t2, e, _, e2⟩ := escaped_perc_source_split_open t w _ he
      have hpl := placeholder_plain a b g hg
      rw [htl] at hpl
      obtain ⟨t3, e3, _⟩ := escaped_perc_source_split_plain tl t2 rest
        (fun x hx => hpl x (List.mem_cons_of_mem _ hx)) e2
      refine ⟨t1, a, g, b, t3, hg, ?_⟩
      rw [e, e3, htl]; simp
  · rintro ⟨pre, a, v, b, post, hv, ht⟩
    have hE : escaped_perc_source t =
        escaped_perc_source pre ++ (placeholder a v b ++ escaped_perc_source post) := by
      rw [ht, escaped_perc_source_append, escaped_perc_source_append,
        escaped_perc_source_all_plain _ (placeholder_plain a b v hv), List.append_assoc]
    have hm := re_variable_complete a b v (escaped_perc_source post) hv
    obtain ⟨tl, htl⟩ : ∃ tl, placeholder a v b = 123 :: tl := ⟨_, rfl⟩
    refine ⟨escaped_perc_source pre, 123, tl ++ escaped_perc_source post, ?_, ?_⟩
    · rw [hE, htl]; rfl
    · rw [← List.cons_append, ← htl, hm]
      simp

/-- The variable list is empty exactly when the template holds no
placeholder. -/
theorem template_variables_nil_iff (t : CStr) :
    template_variables t = [] ↔ ¬ HasPlaceholder t := by
  rw [← match_iff_hasPlaceholder, template_variables, regex_replace_nil_iff]
  constructor
  · rintro h ⟨w, c, u, he, hm⟩
    exact hm (h w c u he)
  · intro h w c u he
    by_contra hm
    exact h ⟨w, c, u, he, hm⟩

/-! ## Claims about `generate_source` -/

theorem regex_replace_percent_eq (s : CStr) :
    (regex_replace re_percent (ascii "%%") 0 s).1 = double_percent s := by
  induction s with
  | nil => rfl
  | cons x xs ih =>
    have e : x :: xs = [x] ++ xs := rfl
    have e2 : double_percent (x :: xs) = double_percent [x] ++ double_percent xs := by
      rw [e, double_percent, List.flatMap_append]; rfl
    rw [e2, e, regex_replace_percent_append, ih]
    congr 1
    by_cases hx : x = 37
    · subst hx; rfl
    · rw [regex_replace_percent_id _ _ (by simp; exact fun h => hx h.symm)]
      simp [double_percent, List.flatMap, hx]

theorem escaped_perc_source_eq (t : CStr) :
    escaped_perc_source t = double_percent (g_strescape t) :=
  regex_replace_percent_eq _

theorem lookup_lines_eq (v : CStr) (vs : List CStr) :
    lookup_lines (v :: vs) =
      (ascii ",\n").intercalate ((v :: vs).map lookup_call) ++ ascii ");\n" := by
  induction vs generalizing v with
  | nil => simp [lookup_lines, lookup_call, List.intercalate]
  | cons w ws ih =>
    rw [lookup_lines, if_pos (by simp), ih w]
    simp [lookup_call, List.intercalate, List.intersperse]

theorem strdup_lines_ne (name rest1 rest2 : CStr) :
    strdup_line name ++ rest1 ≠ strdup_printf_line name ++ rest2 := by
  have e1 : strdup_line name ++ rest1 = ascii "    gchar *rv = g_strdup" ++
      (40 :: (ascii "balde_template_" ++ name ++ ascii "_format);\n" ++ rest1)) := by
    have : ascii "    gchar *rv = g_strdup(balde_template_" =
        ascii "    gchar *rv = g_strdup" ++ 40 :: ascii "balde_template_" := by decide
    rw [strdup_line, this]; simp
  have e2 : strdup_printf_line name ++ rest2 = ascii "    gchar *rv = g_strdup" ++
      (95 :: (ascii "printf(balde_template_" ++ name ++ ascii "_format,\n" ++ rest2)) := by
    have : ascii "    gchar *rv = g_strdup_printf(balde_template_" =
        ascii "    gchar *rv = g_strdup" ++ 95 :: ascii "printf(balde_template_" := by decide
    rw [strdup_printf_line, this]; simp
  rw [e1, e2]
  intro h
  have := List.append_cancel_left h
  simp at this

/-- C8: a template without any substring `{{ *v *}}` (`v` an identifier) gives
an empty variable list, and its format text is the escaped text: the
`g_strescape` image with every `%` doubled, braces kept as they are. -/
theorem C8_no_placeholder_is_literal (t : CStr) (h : ¬ HasPlaceholder t) :
    template_variables t = [] ∧ final_source t = double_percent (g_strescape t) := by
  have hv := (template_variables_nil_iff t).2 h
  refine ⟨hv, ?_⟩
  rw [← escaped_perc_source_eq]
  exact regex_replace_id _ _ _ hv

/-- The text `{{1abc}} {{a b}} {{_a}} {{a} {a}}` holds no placeholder and is
kept as it is. -/
theorem C8_no_placeholder_is_literal_witness :
    ¬ HasPlaceholder (ascii "\x7b\x7b1abc\x7d\x7d \x7b\x7ba b\x7d\x7d \x7b\x7b_a\x7d\x7d \x7b\x7ba\x7d \x7ba\x7d\x7d") ∧
    template_variables (ascii "\x7b\x7b1abc\x7d\x7d \x7b\x7ba b\x7d\x7d \x7b\x7b_a\x7d\x7d \x7b\x7ba\x7d \x7ba\x7d\x7d") = [] ∧
    final_source (ascii "\x7b\x7b1abc\x7d\x7d \x7b\x7ba b\x7d\x7d \x7b\x7b_a\x7d\x7d \x7b\x7ba\x7d \x7ba\x7d\x7d") =
      double_percent (g_strescape (ascii "\x7b\x7b1abc\x7d\x7d \x7b\x7ba b\x7d\x7d \x7b\x7b_a\x7d\x7d \x7b\x7ba\x7d \x7ba\x7d\x7d")) :=
  ⟨(template_variables_nil_iff _).1 (by decide),
    C8_no_placeholder_is_literal _ ((template_variables_nil_iff _).1 (by decide))⟩

/-- The two shapes of the routine body, on the definitions of the embedding. -/
theorem routine_body_cases (template_name t : CStr) :
    (¬ HasPlaceholder t ↔
      routine_body template_name (template_variables t) =
        strdup_line template_name ++ source_tail) ∧
    (HasPlaceholder t ↔
      template_variables t ≠ [] ∧
      routine_body template_name (template_variables t) =
        strdup_printf_line template_name ++
          ((ascii ",\n").intercalate ((template_variables t).map lookup_call) ++ ascii ");\n")
          ++ source_tail) := by
  have hbody : ∀ v vs, routine_body template_name (v :: vs) =
      strdup_printf_line template_name ++
        ((ascii ",\n").intercalate ((v :: vs).map lookup_call) ++ ascii ");\n")
        ++ source_tail := by
    intro v vs
    rw [routine_body, if_neg (by simp), lookup_lines_eq]
  refine ⟨?_, ?_⟩
  · rw [← template_variables_nil_iff]
    constructor
    · intro h; rw [h, routine_body, if_pos rfl, lookup_lines, List.append_nil]
    · intro h
      cases hv : template_variables t with
      | nil => rfl
      | cons v vs =>
        rw [hv, hbody, List.append_assoc] at h
        exact absurd h.symm (strdup_lines_ne _ _ _)
  · constructor
    · intro h
      have hne : template_variables t ≠ [] := fun e => (template_variables_nil_iff t).1 e h
      refine ⟨hne, ?_⟩
      cases hv : template_variables t with
      | nil => exact absurd hv hne
      | cons v vs => exact hbody v vs
    · intro h
      by_contra hp
      exact h.1 ((template_variables_nil_iff t).2 hp)

/-- C4: for every template name and template text, the text `generate_source`
returns is the heading with the format constant followed by the routine body,
and that body is the line `gchar *rv = g_strdup(balde_template_NAME_format);`
followed directly by the closing lines (no `g_strdup_printf` call, no
`balde_response_get_tmpl_var` lookup) exactly when the template holds no
placeholder; exactly when it holds one, the body is the line
`gchar *rv = g_strdup_printf(balde_template_NAME_format,` followed by one
lookup per recorded variable, separated by commas and closed by `);`, and the
closing lines. -/
theorem C4_strdup_iff_no_placeholder (template_name t : CStr) :
    (¬ HasPlaceholder t ↔
      generate_source template_name t =
        (ascii "// WARNING: this file was generated automatically by balde-template-gen\n\n#include <balde.h>\n#include <glib.h>\n\nconst gchar *balde_template_"
          ++ template_name ++ ascii "_format = \"" ++ final_source t
          ++ ascii "\";\n\nvoid\nbalde_template_"
          ++ template_name ++ ascii "(balde_response_t *response)\n\x7b\n")
        ++ (ascii "    gchar *rv = g_strdup(balde_template_" ++ template_name
          ++ ascii "_format);\n"
          ++ ascii "    balde_response_append_body(response, rv);\n    g_free(rv);\n\x7d\n")) ∧
    (HasPlaceholder t ↔
      template_variables t ≠ [] ∧
      generate_source template_name t =
        (ascii "// WARNING: this file was generated automatically by balde-template-gen\n\n#include <balde.h>\n#include <glib.h>\n\nconst gchar *balde_template_"
          ++ template_name ++ ascii "_format = \"" ++ final_source t
          ++ ascii "\";\n\nvoid\nbalde_template_"
          ++ template_name ++ ascii "(balde_response_t *response)\n\x7b\n")
        ++ (ascii "    gchar *rv = g_strdup_printf(balde_template_" ++ template_name
          ++ ascii "_format,\n"
          ++ ((ascii ",\n").intercalate ((template_variables t).map (fun v =>
                ascii "        balde_response_get_tmpl_var(response, \"" ++ v ++ ascii "\")"))
              ++ ascii ");\n")
          ++ ascii "    balde_response_append_body(response, rv);\n    g_free(rv);\n\x7d\n")) := by
  have hc := routine_body_cases template_name t
  have hgen : ∀ body, generate_source template_name t =
      source_head template_name (final_source t) ++ body ↔
      routine_body template_name (template_variables t) = body := by
    intro body
    rw [generate_source]
    exact ⟨fun h => List.append_cancel_left h, fun h => by rw [h]⟩
  constructor
  · rw [hc.1]
    exact (hgen _).symm
  · rw [hc.2]
    exact and_congr_right (fun _ => (hgen _).symm)

set_option maxRecDepth 100000 in
/-- The template `Hello` gives a routine that copies the format with
`g_strdup`; the template `Hi {{x}} and {{ y }}` gives one that calls
`g_strdup_printf` with the lookups of `x` and `y`. -/
theorem C4_strdup_iff_no_placeholder_witness :
    generate_source (ascii "foo") (ascii "Hello") =
      ascii "// WARNING: this file was generated automatically by balde-template-gen\n\n#include <balde.h>\n#include <glib.h>\n\nconst gchar *balde_template_foo_format = \"Hello\";\n\nvoid\nbalde_template_foo(balde_response_t *response)\n\x7b\n    gchar *rv = g_strdup(balde_template_foo_format);\n    balde_response_append_body(response, rv);\n    g_free(rv);\n\x7d\n" ∧
    generate_source (ascii "foo") (ascii "Hi \x7b\x7bx\x7d\x7d and \x7b\x7b y \x7d\x7d") =
      ascii "// WARNING: this file was generated automatically by balde-template-gen\n\n#include <balde.h>\n#include <glib.h>\n\nconst gchar *balde_template_foo_format = \"Hi %s and %s\";\n\nvoid\nbalde_template_foo(balde_response_t *response)\n\x7b\n    gchar *rv = g_strdup_printf(balde_template_foo_format,\n        balde_response_get_tmpl_var(response, \"x\"),\n        balde_response_get_tmpl_var(response, \"y\"));\n    balde_response_append_body(response, rv);\n    g_free(rv);\n\x7d\n" :=
  ⟨(C4_strdup_iff_no_placeholder (ascii "foo") (ascii "Hello")).1.1
      ((template_variables_nil_iff _).1 (by decide)),
   ((C4_strdup_iff_no_placeholder (ascii "foo")
      (ascii "Hi \x7b\x7bx\x7d\x7d and \x7b\x7b y \x7d\x7d")).2.1
      ((template_variables_nil_iff _).not_left.1 (by decide))).2⟩

/-- C7 as stated fails: with a tab between `{{` and the identifier, as in
`{{<TAB>a}}`, the text is not a placeholder; the variable list is empty and the
format text is the escaped text `{{\ta}}`, braces kept. -/
theorem C7_tab_is_not_placeholder :
    ¬ (template_variables (ascii "\x7b\x7b\ta\x7d\x7d") = [ascii "a"] ∧
        final_source (ascii "\x7b\x7b\ta\x7d\x7d") = ascii "%s") ∧
    template_variables (ascii "\x7b\x7b\ta\x7d\x7d") = [] ∧
    final_source (ascii "\x7b\x7b\ta\x7d\x7d") = ascii "\x7b\x7b\\ta\x7d\x7d" := by
  decide

/-- C7, amended: for an identifier `v` and any numbers `a`, `b` of space
characters, the template `{{`, `a` spaces, `v`, `b` spaces, `}}` is one
placeholder: the variable list is `[v]` and the format text is `%s`. -/
theorem C7_spaces_placeholder (a b : Nat) (v : CStr) (hv : isIdentifier v = true) :
    template_variables (placeholder a v b) = [v] ∧
    final_source (placeholder a v b) = ascii "%s" := by
  have hE : escaped_perc_source (placeholder a v b) = placeholder a v b ++ [] := by
    rw [List.append_nil]
    exact escaped_perc_source_all_plain _ (placeholder_plain a b v hv)
  have hr := regex_replace_variable_placeholder (ascii "%s") a b v [] hv
  constructor
  · rw [template_variables, hE, hr]; rfl
  · rw [final_source, hE, hr]; rfl

/-- The template `{{  user_name1   }}` is one placeholder. -/
theorem C7_spaces_placeholder_witness :
    isIdentifier (ascii "user_name1") = true ∧
    template_variables (placeholder 2 (ascii "user_name1") 3) = [ascii "user_name1"] ∧
    final_source (placeholder 2 (ascii "user_name1") 3) = ascii "%s" :=
  ⟨by decide, C7_spaces_placeholder 2 3 (ascii "user_name1") (by decide)⟩

theorem escaped_perc_source_no_open (t : CStr) (h : 123 ∉ t) :
    123 ∉ escaped_perc_source t := by
  induction t with
  | nil => simp [escaped_perc_source, g_strescape, regex_replace]
  | cons c t ih =>
    rw [escaped_perc_source_cons, List.mem_append]
    rintro (hm | hm)
    · exact h (by rw [escaped_perc_source_open hm]; simp)
    · exact ih (fun e => h (List.mem_cons_of_mem _ e)) hm

/-- The scan of `re_variable` over the escaped text of
`t0 {{v1}} t1 ... {{vn}} tn`. -/
theorem regex_replace_template_of (t0 : CStr) (segs : List Segment)
    (h0 : 123 ∉ t0) (hs : ∀ s ∈ segs, isIdentifier s.v = true ∧ 123 ∉ s.t) :
    regex_replace re_variable (ascii "%s") 0 (escaped_perc_source (template_of t0 segs)) =
      (format_of t0 segs, segs.map (·.v)) := by
  induction segs generalizing t0 with
  | nil =>
    have hno := escaped_perc_source_no_open t0 h0
    have := regex_replace_variable_prefix (ascii "%s") (escaped_perc_source t0) [] hno
    simp only [List.append_nil] at this
    rw [template_of, this]
    simp [regex_replace, format_of]
  | cons s rest ih =>
    have hsv := (hs s (List.mem_cons_self _ _)).1
    have hst := (hs s (List.mem_cons_self _ _)).2
    have hE : escaped_perc_source (template_of t0 (s :: rest)) =
        escaped_perc_source t0 ++
          (placeholder s.a s.v s.b ++ escaped_perc_source (template_of s.t rest)) := by
      rw [template_of, escaped_perc_source_append, escaped_perc_source_append,
        escaped_perc_source_all_plain _ (placeholder_plain s.a s.b s.v hsv), List.append_assoc]
    rw [hE, regex_replace_variable_prefix _ _ _ (escaped_perc_source_no_open t0 h0),
      regex_replace_variable_placeholder _ _ _ _ _ hsv,
      ih s.t hst (fun x hx => hs x (List.mem_cons_of_mem _ hx))]
    simp [format_of]

/-- C2: for identifiers `v1..vn` (repetitions allowed, any number of spaces
around each inside its braces) and brace-free literal texts `t0..tn`, the
template `t0 {{v1}} t1 ... {{vn}} tn` records the variable list `[v1, ..., vn]`
in occurrence order with duplicates kept, the format text holds one `%s` per
placeholder between the escaped literal texts, and the generated routine has
one `balde_response_get_tmpl_var` lookup per entry, in the same order. -/
theorem C2_variables_in_order (template_name t0 : CStr) (segs : List Segment)
    (h0 : braceFree t0) (hs : ∀ s ∈ segs, isIdentifier s.v = true ∧ braceFree s.t) :
    template_variables (template_of t0 segs) = segs.map (·.v) ∧
    final_source (template_of t0 segs) = format_of t0 segs ∧
    generate_source template_name (template_of t0 segs) =
      source_head template_name (format_of t0 segs) ++
        (if segs = [] then strdup_line template_name
         else strdup_printf_line template_name ++
          ((ascii ",\n").intercalate (segs.map (fun s => lookup_call s.v)) ++ ascii ");\n"))
        ++ source_tail := by
  have hr := regex_replace_template_of t0 segs h0.1 (fun s h => ⟨(hs s h).1, (hs s h).2.1⟩)
  have hv : template_variables (template_of t0 segs) = segs.map (·.v) := by
    rw [template_variables, hr]
  have hf : final_source (template_of t0 segs) = format_of t0 segs := by
    rw [final_source, hr]
  refine ⟨hv, hf, ?_⟩
  rw [generate_source, hv, hf, List.append_assoc]
  congr 1
  cases segs with
  | nil => simp [routine_body, lookup_lines]
  | cons s rest =>
    rw [if_neg (by simp), routine_body, if_neg (by simp), List.map_cons, lookup_lines_eq]
    simp [List.map_map, Function.comp_def]

/-- The templates `{{a}}{{ b }}` and `{{x}} and {{x}}` of the specification. -/
theorem C2_variables_in_order_witness :
    template_variables (ascii "\x7b\x7ba\x7d\x7d\x7b\x7b b \x7d\x7d") = [ascii "a", ascii "b"] ∧
    template_variables (ascii "\x7b\x7bx\x7d\x7d and \x7b\x7bx\x7d\x7d") = [ascii "x", ascii "x"] ∧
    final_source (ascii "\x7b\x7bx\x7d\x7d and \x7b\x7bx\x7d\x7d") = ascii "%s and %s" ∧
    generate_source (ascii "foo") (ascii "\x7b\x7bx\x7d\x7d and \x7b\x7bx\x7d\x7d") =
      source_head (ascii "foo") (ascii "%s and %s") ++
        (strdup_printf_line (ascii "foo") ++
          (lookup_call (ascii "x") ++ ascii ",\n" ++ lookup_call (ascii "x") ++ ascii ");\n"))
        ++ source_tail := by
  have h1 := C2_variables_in_order (ascii "foo") [] [⟨0, ascii "a", 0, []⟩, ⟨1, ascii "b", 1, []⟩]
    (by decide) (by decide)
  have h2 := C2_variables_in_order (ascii "foo") []
    [⟨0, ascii "x", 0, ascii " and "⟩, ⟨0, ascii "x", 0, []⟩] (by decide) (by decide)
  exact ⟨h1.1, h2.1, h2.2.1, h2.2.2⟩

theorem printf_slots_append_plain (p r : CStr) (hp : 37 ∉ p) :
    printf_slots false (p ++ r) = printf_slots false r := by
  induction p with
  | nil => rfl
  | cons x xs ih =>
    have hx : x ≠ 37 := fun e => hp (by simp [e])
    rw [List.cons_append, printf_slots, if_neg hx]
    exact ih (fun e => hp (List.mem_cons_of_mem _ e))

/-- The escaped text is a format of literal bytes and `%%` pairs only. -/
theorem printf_slots_escaped (t : CStr) :
    printf_slots false (escaped_perc_source t) = some 0 := by
  induction t with
  | nil => rfl
  | cons c t ih =>
    rw [escaped_perc_source_cons, escaped_perc_source_byte]
    by_cases hc : c = 37
    · rw [if_pos hc]
      simpa [printf_slots] using ih
    · rw [if_neg hc, printf_slots_append_plain _ _ ?_]
      · exact ih
      · intro h
        have := escape_byte_mem h
        omega

theorem placeholder_no_percent (a b : Nat) (v : CStr) (hv : isIdentifier v = true) :
    37 ∉ placeholder a v b := by
  intro h
  have := isPlaceholderByte_range (placeholder_plain a b v hv 37 h)
  omega

/-- Replacing the matches of `re_variable` in a format without conversions
gives a format with exactly one `%s` per recorded variable. -/
theorem printf_slots_replace (n : Nat) :
    ∀ (s : CStr) (b : Bool), s.length ≤ n → printf_slots b s = some 0 →
      printf_slots b (regex_replace re_variable (ascii "%s") 0 s).1 =
        some (regex_replace re_variable (ascii "%s") 0 s).2.length := by
  induction n with
  | zero =>
    intro s b hn h
    have : s = [] := List.length_eq_zero.1 (Nat.le_zero.1 hn)
    subst this
    exact h
  | succ n ih =>
    intro s b hn h
    cases s with
    | nil => exact h
    | cons c cs =>
      cases hre : re_variable (c :: cs) with
      | none =>
        rw [regex_replace_none _ _ _ _ hre]
        have hlen : cs.length ≤ n := by simpa using hn
        cases b with
        | false =>
          by_cases hc : c = 37
          · rw [printf_slots, if_pos hc] at h ⊢
            exact ih cs true hlen h
          · rw [printf_slots, if_neg hc] at h ⊢
            exact ih cs false hlen h
        | true =>
          by_cases hc : c = 37
          · rw [printf_slots, if_pos hc] at h ⊢
            exact ih cs false hlen h
          · rw [printf_slots, if_neg hc] at h
            by_cases hs : c = 115
            · rw [if_pos hs] at h
              cases hq : printf_slots false cs with
              | none => rw [hq] at h; simp at h
              | some k => rw [hq] at h; simp at h
            · rw [if_neg hs] at h; simp at h
      | some r =>
        obtain ⟨g, len⟩ := r
        obtain ⟨a, b', rest, hg, hs, _⟩ := re_variable_sound hre
        rw [hs, regex_replace_variable_placeholder _ _ _ _ _ hg]
        have hc : c = 123 := by
          have : (c :: cs).head? = (placeholder a g b' ++ rest).head? := by rw [hs]
          simpa [placeholder] using this
        subst hc
        cases b with
        | true => simp [printf_slots] at h
        | false =>
          rw [hs, printf_slots_append_plain _ _ (placeholder_no_percent a b' g hg)] at h
          have hlen : rest.length ≤ n := by
            have := congrArg List.length hs
            rw [List.length_append, placeholder_length] at this
            simp only [List.length_cons] at this hn
            omega
          have := ih rest false hlen h
          have e : ascii "%s" ++ (regex_replace re_variable (ascii "%s") 0 rest).1 =
              37 :: 115 :: (regex_replace re_variable (ascii "%s") 0 rest).1 := rfl
          rw [e]
          simp only [printf_slots, if_true, if_neg (show (115 : Nat) ≠ 37 by decide), this]
          rfl

/-- C3: for every template the format text, read as a printf format, holds
only literal bytes, `%%` pairs and `%s` conversions, and the number of `%s`
conversions is the length of the variable list, which is also the number of
lookups printed into the `g_strdup_printf` call. -/
theorem C3_slots_eq_variables (t : CStr) :
    printf_slots false (final_source t) = some (template_variables t).length ∧
    lookup_lines (template_variables t) =
      (if template_variables t = [] then []
       else (ascii ",\n").intercalate ((template_variables t).map lookup_call)
        ++ ascii ");\n") ∧
    ((template_variables t).map lookup_call).length = (template_variables t).length ∧
    printf_slots false (final_source (ascii "%s %d %\x7b\x7ba\x7d\x7d")) = some 1 := by
  refine ⟨?_, ?_, List.length_map _ _, by decide⟩
  · exact printf_slots_replace _ _ false (Nat.le_refl _) (printf_slots_escaped t)
  · cases hv : template_variables t with
    | nil => rfl
    | cons v vs => rw [if_neg (by simp), lookup_lines_eq]

/-- C1: the template `100%` has the format text `100%%` and no variable, so the
generated routine copies the format with `g_strdup`, and what it appends to
the response is `100%%`: the doubled `%` is not turned back into one. -/
theorem C1_percent_stays_doubled_without_variables (tmpl_var : CStr → CStr) :
    final_source (ascii "100%") = ascii "100%%" ∧
    template_variables (ascii "100%") = [] ∧
    routine_body (ascii "foo") (template_variables (ascii "100%")) =
      strdup_line (ascii "foo") ++ source_tail ∧
    render (ascii "100%") tmpl_var = some (ascii "100%%") ∧
    render (ascii "100%") tmpl_var ≠ some (ascii "100%") :=
  ⟨by decide, by decide, by decide, rfl, by
    have h : render (ascii "100%") tmpl_var = some (ascii "100%%") := rfl
    rw [h]; decide⟩

/-! ## Claims about `get_template_name` -/

theorem g_path_get_basename_ne_nil (f : CStr) : g_path_get_basename f ≠ [] := by
  unfold g_path_get_basename
  by_cases hf : f = []
  · rw [if_pos hf]; decide
  · rw [if_neg hf]
    simp only []
    by_cases hr : f.reverse.dropWhile (· = 47) = []
    · rw [if_pos hr]; decide
    · rw [if_neg hr]
      intro h
      rw [List.reverse_eq_nil_iff] at h
      cases hd : f.reverse.dropWhile (· = 47) with
      | nil => exact hr hd
      | cons x xs =>
        have hx : ¬ (decide (x = 47) = true) := by
          have := List.head_dropWhile_not (fun c : Nat => decide (c = 47)) f.reverse
            (by rw [hd]; simp)
          simpa [hd] using this
        rw [hd, List.takeWhile_cons] at h
        simp only [decide_eq_true_eq] at hx
        simp [hx] at h

theorem strip_suffix_loop_ne_nil (name : CStr) (h : name ≠ []) (i : Nat) :
    strip_suffix_loop name i ≠ [] := by
  induction i with
  | zero => exact h
  | succ i ih =>
    rw [strip_suffix_loop]
    split_ifs
    · cases name with
      | nil => exact absurd rfl h
      | cons x xs => simp
    · exact ih

/-- The first loop cuts the name at its last `.` when that `.` is not the
first byte. -/
theorem strip_suffix_loop_cut (pre suf : CStr) (hs : 46 ∉ suf) (hp : pre ≠ []) (i : Nat)
    (hi : pre.length ≤ i) :
    strip_suffix_loop (pre ++ 46 :: suf) i = pre := by
  induction i with
  | zero =>
    have : pre = [] := List.length_eq_zero.1 (Nat.le_zero.1 hi)
    exact absurd this hp
  | succ i ih =>
    rw [strip_suffix_loop]
    by_cases he : pre.length = i + 1
    · have hget : (pre ++ 46 :: suf).getD (i + 1) 0 = 46 := by
        rw [← he, List.getD_eq_getElem?_getD, List.getElem?_append_right (Nat.le_refl _),
          Nat.sub_self]
        simp
      rw [if_pos hget, ← he]
      exact List.take_left' rfl
    · have hlt : pre.length ≤ i := by omega
      have hget : (pre ++ 46 :: suf).getD (i + 1) 0 ≠ 46 := by
        rw [List.getD_eq_getElem?_getD, List.getElem?_append_right (by omega)]
        intro h
        have hpos : 0 < i + 1 - pre.length := by omega
        obtain ⟨k, hk⟩ : ∃ k, i + 1 - pre.length = k + 1 := ⟨i - pre.length, by omega⟩
        rw [hk, List.getElem?_cons_succ] at h
        cases hq : suf[k]? with
        | none => rw [hq] at h; simp at h
        | some y =>
          rw [hq] at h
          simp only [Option.getD_some] at h
          subst h
          exact hs (List.getElem?_mem hq)
      rw [if_neg hget]
      exact ih hlt

/-- The first loop leaves a name alone when no `.` follows its first byte. -/
theorem strip_suffix_loop_keep (name : CStr) (h : 46 ∉ name.tail) (i : Nat) :
    strip_suffix_loop name i = name := by
  induction i with
  | zero => rfl
  | succ i ih =>
    rw [strip_suffix_loop]
    have hget : name.getD (i + 1) 0 ≠ 46 := by
      cases name with
      | nil => simp
      | cons x xs =>
        rw [List.getD_eq_getElem?_getD, List.getElem?_cons_succ]
        intro e
        cases hq : xs[i]? with
        | none => rw [hq] at e; simp at e
        | some y =>
          rw [hq] at e
          simp only [Option.getD_some] at e
          subst e
          exact h (List.getElem?_mem hq)
    rw [if_neg hget]
    exact ih

/-- C5 as stated fails: the base name `.c` has its only `.` first; the claim
removes everything from it and leaves the empty name, the code keeps the whole
base name and answers `_c`. -/
theorem C5_leading_dot_is_kept :
    g_path_get_basename (ascii ".c") = [] ++ 46 :: ascii "c" ∧
    46 ∉ ascii "c" ∧
    get_template_name (ascii ".c") ≠ replace_non_alpha [] ∧
    get_template_name (ascii ".c") = ascii "_c" := by
  decide

/-- C5, amended: with `b` the base name of the output path, when `b` is
`pre . suf` with no `.` in `suf` and `pre` not empty, the result is `pre` with
every byte that is not an ASCII letter (digits included) replaced by `_`; when
no `.` follows the first byte of `b` (no `.` at all, or only a leading one),
the result is the whole of `b` with the same replacement; `foo.tmpl.c` gives
`foo_tmpl`. -/
theorem C5_get_template_name (path : CStr) :
    (∀ pre suf, g_path_get_basename path = pre ++ 46 :: suf → 46 ∉ suf → pre ≠ [] →
      get_template_name path = pre.map (fun c => if g_ascii_isalpha c then c else 95)) ∧
    (46 ∉ (g_path_get_basename path).tail →
      get_template_name path =
        (g_path_get_basename path).map (fun c => if g_ascii_isalpha c then c else 95)) ∧
    get_template_name (ascii "foo.tmpl.c") = ascii "foo_tmpl" := by
  refine ⟨?_, ?_, by decide⟩
  · intro pre suf hb hs hp
    show replace_non_alpha (strip_suffix_loop (g_path_get_basename path)
      (g_path_get_basename path).length) = _
    rw [hb, strip_suffix_loop_cut pre suf hs hp _ (by simp)]
    rfl
  · intro h
    show replace_non_alpha (strip_suffix_loop (g_path_get_basename path)
      (g_path_get_basename path).length) = _
    rw [strip_suffix_loop_keep _ h]
    rfl

/-- The paths `dir/foo.tmpl.c` and `dir/.c`. -/
theorem C5_get_template_name_witness :
    get_template_name (ascii "dir/foo.tmpl.c") = ascii "foo_tmpl" ∧
    get_template_name (ascii "dir/.c") = ascii "_c" :=
  ⟨(C5_get_template_name (ascii "dir/foo.tmpl.c")).1 (ascii "foo.tmpl") (ascii "c")
      (by decide) (by decide) (by decide),
    (C5_get_template_name (ascii "dir/.c")).2.1 (by decide)⟩

/-- C6: for every output path the result of `get_template_name` is not empty,
every byte of it is an ASCII letter or `_`, and it does not start with a
digit. -/
theorem C6_template_name_is_identifier (path : CStr) :
    get_template_name path ≠ [] ∧
    (∀ c ∈ get_template_name path, g_ascii_isalpha c = true ∨ c = 95) ∧
    (∀ c, (get_template_name path).head? = some c → ¬ (48 ≤ c ∧ c ≤ 57)) ∧
    get_template_name [] = ascii "_" ∧
    get_template_name (ascii "//") = ascii "_" ∧
    get_template_name (ascii ".c") = ascii "_c" ∧
    get_template_name (ascii "9a.c") = ascii "_a" := by
  have hmem : ∀ c ∈ get_template_name path, g_ascii_isalpha c = true ∨ c = 95 := by
    intro c hc
    simp only [get_template_name, replace_non_alpha, List.mem_map] at hc
    obtain ⟨x, _, hx⟩ := hc
    by_cases ha : g_ascii_isalpha x = true
    · rw [if_pos ha] at hx; subst hx; exact Or.inl ha
    · rw [if_neg ha] at hx; exact Or.inr hx.symm
  refine ⟨?_, hmem, ?_, by decide, by decide, by decide, by decide⟩
  · simp only [get_template_name, replace_non_alpha, ne_eq, List.map_eq_nil_iff]
    exact strip_suffix_loop_ne_nil _ (g_path_get_basename_ne_nil path) _
  · intro c hc
    have := hmem c (List.mem_of_mem_head? hc)
    rcases this with h | h
    · simp only [g_ascii_isalpha, Bool.or_eq_true, Bool.and_eq_true, decide_eq_true_eq] at h
      omega
    · omega

/-! ## The order of `g_strcmp0` -/

theorem g_strcmp0_range (a b : CStr) :
    g_strcmp0 a b = -1 ∨ g_strcmp0 a b = 0 ∨ g_strcmp0 a b = 1 := by
  induction a generalizing b with
  | nil => cases b <;> simp [g_strcmp0]
  | cons x xs ih =>
    cases b with
    | nil => simp [g_strcmp0]
    | cons y ys =>
      rw [g_strcmp0]
      split_ifs
      · exact Or.inl rfl
      · exact Or.inr (Or.inr rfl)
      · exact ih ys

theorem g_strcmp0_swap (a b : CStr) : g_strcmp0 b a = - g_strcmp0 a b := by
  induction a generalizing b with
  | nil => cases b <;> simp [g_strcmp0]
  | cons x xs ih =>
    cases b with
    | nil => simp [g_strcmp0]
    | cons y ys =>
      rw [g_strcmp0, g_strcmp0]
      by_cases h1 : x < y
      · have h2 : ¬ y < x := by omega
        simp [h1, h2]
      · by_cases h2 : y < x
        · simp [h1, h2]
        · simp [h1, h2, ih ys]

theorem g_strcmp0_eq_zero {a b : CStr} (h : g_strcmp0 a b = 0) : a = b := by
  induction a generalizing b with
  | nil => cases b with
    | nil => rfl
    | cons y ys => simp [g_strcmp0] at h
  | cons x xs ih =>
    cases b with
    | nil => simp [g_strcmp0] at h
    | cons y ys =>
      rw [g_strcmp0] at h
      by_cases h1 : x < y
      · simp [h1] at h
      · by_cases h2 : y < x
        · simp [h1, h2] at h
        · simp only [h1, h2, if_false] at h
          have : x = y := by omega
          rw [this, ih h]

theorem strLe_total (a b : CStr) : strLe a b ∨ strLe b a := by
  unfold strLe
  rw [g_strcmp0_swap a b]
  omega

theorem strLe_of_gt {a b : CStr} (h : g_strcmp0 a b > 0) : strLe b a := by
  unfold strLe
  rw [g_strcmp0_swap a b]
  omega

theorem strLe_antisymm {a b : CStr} (h1 : strLe a b) (h2 : strLe b a) : a = b := by
  unfold strLe at h1 h2
  rw [g_strcmp0_swap a b] at h2
  exact g_strcmp0_eq_zero (by omega)

theorem strLe_trans {a b c : CStr} (h1 : strLe a b) (h2 : strLe b c) : strLe a c := by
  unfold strLe at *
  induction a generalizing b c with
  | nil => cases c <;> simp [g_strcmp0]
  | cons x xs ih =>
    cases b with
    | nil => simp [g_strcmp0] at h1
    | cons y ys =>
      cases c with
      | nil => simp [g_strcmp0] at h2
      | cons z zs =>
        rw [g_strcmp0] at h1 h2 ⊢
        by_cases hxy : x < y
        · have hxz : x < z := by
            by_contra hn
            have : ¬ y < z := by omega
            by_cases hzy : z < y
            · simp [this, hzy] at h2
            · omega
          simp [hxz]
        · by_cases hyx : y < x
          · simp [hxy, hyx] at h1
          · simp only [hxy, hyx, if_false] at h1
            have exy : x = y := by omega
            subst exy
            by_cases hxz : x < z
            · simp [hxz]
            · by_cases hzx : z < x
              · simp [hxz, hzx] at h2
              · simp only [hxz, hzx, if_false] at h2 ⊢
                exact ih h1 h2

/-! ## Ordered insertion -/

theorem g_slist_insert_sorted_perm (x : CStr) (l : List CStr) :
    (g_slist_insert_sorted x l).Perm (x :: l) := by
  induction l with
  | nil => exact List.Perm.refl _
  | cons e es ih =>
    rw [g_slist_insert_sorted]
    split_ifs
    · exact (List.Perm.cons e ih).trans (List.Perm.swap x e es)
    · exact List.Perm.refl _

theorem g_slist_insert_sorted_sorted (x : CStr) (l : List CStr) (h : l.Sorted strLe) :
    (g_slist_insert_sorted x l).Sorted strLe := by
  induction l with
  | nil => exact List.sorted_singleton x
  | cons e es ih =>
    rw [g_slist_insert_sorted]
    have hes := List.Sorted.of_cons h
    have hrel := List.rel_of_sorted_cons h
    split_ifs with hgt
    · rw [List.sorted_cons]
      refine ⟨fun b hb => ?_, ih hes⟩
      rcases List.mem_cons.1 ((g_slist_insert_sorted_perm x es).subset hb) with e1 | e1
      · rw [e1]; exact strLe_of_gt hgt
      · exact hrel b e1
    · have hxe : strLe x e := by unfold strLe; omega
      rw [List.sorted_cons]
      refine ⟨fun b hb => ?_, h⟩
      rcases List.mem_cons.1 hb with e1 | e1
      · rw [e1]; exact hxe
      · exact strLe_trans hxe (hrel b e1)

/-! ## The walk -/

theorem list_childrens_loop_nil (path : CStr) (st : WalkState) :
    list_childrens_loop .nil path st = st := by
  rw [list_childrens_loop]

mutual
/-- With no failing enumeration and an empty error slot, the walk inserts the
leaf paths one by one and leaves the error slot empty. -/
theorem list_childrens_ok : ∀ (enum : Enumeration) (path : CStr) (st : WalkState),
    enumeration_ok enum = true → st.error = none →
    balde_resources_list_childrens enum path st =
      { list := (enumeration_leaves enum path).foldl (fun l p => g_slist_insert_sorted p l) st.list,
        error := none }
  | .failure e, path, st, h, _ => by simp [enumeration_ok] at h
  | .names cs, path, st, h, he => by
    rw [balde_resources_list_childrens, he]
    simp only [Option.isSome_none, Bool.false_eq_true, if_false]
    rw [enumeration_leaves]
    exact list_childrens_loop_ok cs path st (by simpa [enumeration_ok] using h) he
theorem list_childrens_loop_ok : ∀ (cs : Children) (path : CStr) (st : WalkState),
    children_ok cs = true → st.error = none →
    list_childrens_loop cs path st =
      { list := (children_leaves cs path).foldl (fun l p => g_slist_insert_sorted p l) st.list,
        error := none }
  | .nil, path, st, _, he => by
    rw [list_childrens_loop, children_leaves]
    cases st; simp_all
  | .cons name node rest, path, st, h, he => by
    simp only [children_ok, Bool.and_eq_true] at h
    rw [list_childrens_loop, children_leaves, List.foldl_append,
      list_childrens_child_ok node (path ++ name) st h.1 he,
      list_childrens_loop_ok rest path _ h.2 rfl]
theorem list_childrens_child_ok : ∀ (node : Node) (child : CStr) (st : WalkState),
    node_ok node = true → st.error = none →
    list_childrens_child node child st =
      { list := (node_leaves node child).foldl (fun l p => g_slist_insert_sorted p l) st.list,
        error := none }
  | .leaf, child, st, _, he => by
    rw [list_childrens_child, node_leaves]
    cases st; simp_all
  | .inner sub, child, st, h, he => by
    rw [list_childrens_child, node_leaves]
    exact list_childrens_ok sub child st (by simpa [node_ok] using h) he
end

mutual
/-- An error already in the slot is still there after the walk. -/
theorem list_childrens_keeps_error : ∀ (enum : Enumeration) (path : CStr) (st : WalkState),
    st.error.isSome = true →
    (balde_resources_list_childrens enum path st).error = st.error
  | .failure e, path, st, h => by rw [balde_resources_list_childrens, if_pos h]
  | .names cs, path, st, h => by rw [balde_resources_list_childrens, if_pos h]
theorem list_childrens_loop_keeps_error : ∀ (cs : Children) (path : CStr) (st : WalkState),
    st.error.isSome = true →
    (list_childrens_loop cs path st).error = st.error
  | .nil, path, st, _ => by rw [list_childrens_loop]
  | .cons name node rest, path, st, h => by
    have h1 := list_childrens_child_keeps_error node (path ++ name) st h
    rw [list_childrens_loop, list_childrens_loop_keeps_error rest path _ (by rw [h1]; exact h), h1]
theorem list_childrens_child_keeps_error : ∀ (node : Node) (child : CStr) (st : WalkState),
    st.error.isSome = true →
    (list_childrens_child node child st).error = st.error
  | .leaf, child, st, _ => by rw [list_childrens_child]
  | .inner sub, child, st, h => by
    rw [list_childrens_child]
    exact list_childrens_keeps_error sub child st h
end

mutual
/-- A walk that ends with an empty error slot met no failing enumeration. -/
theorem list_childrens_error_none : ∀ (enum : Enumeration) (path : CStr) (st : WalkState),
    (balde_resources_list_childrens enum path st).error = none → enumeration_ok enum = true
  | .failure e, path, st, h => by
    rw [balde_resources_list_childrens] at h
    split_ifs at h with hs
    rw [h] at hs; simp at hs
  | .names cs, path, st, h => by
    rw [balde_resources_list_childrens] at h
    rw [enumeration_ok]
    split_ifs at h with hs
    · rw [h] at hs; simp at hs
    · exact list_childrens_loop_error_none cs path st h
theorem list_childrens_loop_error_none : ∀ (cs : Children) (path : CStr) (st : WalkState),
    (list_childrens_loop cs path st).error = none → children_ok cs = true
  | .nil, path, st, _ => by rw [children_ok]
  | .cons name node rest, path, st, h => by
    rw [list_childrens_loop] at h
    rw [children_ok, Bool.and_eq_true]
    refine ⟨?_, list_childrens_loop_error_none rest path _ h⟩
    apply list_childrens_child_error_none node (path ++ name) st
    cases he : (list_childrens_child node (path ++ name) st).error with
    | none => rfl
    | some e =>
      rw [list_childrens_loop_keeps_error rest path _ (by rw [he]; rfl), he] at h
      exact absurd h (by simp)
theorem list_childrens_child_error_none : ∀ (node : Node) (child : CStr) (st : WalkState),
    (list_childrens_child node child st).error = none → node_ok node = true
  | .leaf, child, st, _ => by rw [node_ok]
  | .inner sub, child, st, h => by
    rw [list_childrens_child] at h
    rw [node_ok]
    exact list_childrens_error_none sub child st h
end

/-- Reordering the child names keeps the tree free of failing enumerations and
keeps the leaf paths, up to their order. -/
theorem children_reorder_leaves {a b : Children} (h : Children.Reorder a b) :
    ∀ path, children_ok a = children_ok b ∧
      (children_leaves a path).Perm (children_leaves b path) := by
  induction h with
  | nil => exact fun path => ⟨rfl, List.Perm.refl _⟩
  | cons name node _ ih =>
    intro path
    rw [children_ok, children_ok, children_leaves, children_leaves, (ih path).1]
    exact ⟨rfl, List.Perm.append_left _ (ih path).2⟩
  | inner name _ _ ih1 ih2 =>
    intro path
    simp only [children_ok, children_leaves, node_ok, node_leaves, enumeration_ok,
      enumeration_leaves]
    rw [(ih1 (path ++ name)).1, (ih2 path).1]
    exact ⟨rfl, List.Perm.append (ih1 (path ++ name)).2 (ih2 path).2⟩
  | swap n m a b r =>
    intro path
    simp only [children_ok, children_leaves]
    refine ⟨?_, ?_⟩
    · cases node_ok a <;> cases node_ok b <;> rfl
    · rw [← List.append_assoc, ← List.append_assoc]
      exact List.Perm.append_right _ List.perm_append_comm
  | trans _ _ ih1 ih2 =>
    intro path
    exact ⟨(ih1 path).1.trans (ih2 path).1, (ih1 path).2.trans (ih2 path).2⟩

theorem enumeration_reorder_leaves {a b : Enumeration} (h : Enumeration.Reorder a b)
    (path : CStr) : enumeration_ok a = enumeration_ok b ∧
      (enumeration_leaves a path).Perm (enumeration_leaves b path) := by
  cases h with
  | failure e => exact ⟨rfl, List.Perm.refl _⟩
  | names hc =>
    rw [enumeration_ok, enumeration_ok, enumeration_leaves, enumeration_leaves]
    exact children_reorder_leaves hc path

theorem foldl_insert_sorted (l init : List CStr) (h : init.Sorted strLe) :
    (l.foldl (fun l p => g_slist_insert_sorted p l) init).Sorted strLe := by
  induction l generalizing init with
  | nil => exact h
  | cons x xs ih => exact ih _ (g_slist_insert_sorted_sorted x init h)

theorem foldl_insert_perm (l init : List CStr) :
    (l.foldl (fun l p => g_slist_insert_sorted p l) init).Perm (init ++ l) := by
  induction l generalizing init with
  | nil => simp
  | cons x xs ih =>
    refine (ih _).trans ?_
    refine (List.Perm.append_right xs (g_slist_insert_sorted_perm x init)).trans ?_
    simp only [List.cons_append]
    exact List.perm_middle.symm

/-- A successful `balde_resources_list_files` met no failing enumeration and
returns the leaf paths inserted one by one into the empty list. -/
theorem list_files_ok {resources : Enumeration} {l : List CStr}
    (h : balde_resources_list_files resources = .ok l) :
    enumeration_ok resources = true ∧
    l = (enumeration_leaves resources (ascii "/")).foldl
      (fun l p => g_slist_insert_sorted p l) [] := by
  unfold balde_resources_list_files at h
  simp only [] at h
  cases he : (balde_resources_list_childrens resources (ascii "/")
      { list := [], error := none }).error with
  | some e => rw [he] at h; simp at h
  | none =>
    have hok := list_childrens_error_none _ _ _ he
    refine ⟨hok, ?_⟩
    rw [he] at h
    simp only [Except.ok.injEq] at h
    rw [← h, list_childrens_ok _ _ _ hok rfl]

theorem list_files_of_ok {resources : Enumeration} (h : enumeration_ok resources = true) :
    balde_resources_list_files resources =
      .ok ((enumeration_leaves resources (ascii "/")).foldl
        (fun l p => g_slist_insert_sorted p l) []) := by
  unfold balde_resources_list_files
  simp only []
  rw [list_childrens_ok _ _ _ h rfl]

/-! ## Claims about `balde_resources_list_files` -/

/-- C9: a successful `balde_resources_list_files` returns a sequence sorted in
non-decreasing `g_strcmp0` order, and every bundle that lists the same children
in another order, at any depth, gives the same sequence. -/
theorem C9_list_files_sorted_any_order (resources : Enumeration) (l : List CStr)
    (h : balde_resources_list_files resources = .ok l) :
    l.Sorted strLe ∧
    ∀ reordered, Enumeration.Reorder resources reordered →
      balde_resources_list_files reordered = .ok l := by
  obtain ⟨hok, hl⟩ := list_files_ok h
  have hs : l.Sorted strLe := by
    rw [hl]; exact foldl_insert_sorted _ [] List.sorted_nil
  refine ⟨hs, fun reordered hr => ?_⟩
  have hre := enumeration_reorder_leaves hr (ascii "/")
  have hok' : enumeration_ok reordered = true := by rw [← hre.1]; exact hok
  rw [list_files_of_ok hok']
  congr 1
  refine @List.eq_of_perm_of_sorted _ strLe ⟨fun _ _ => strLe_antisymm⟩ _ _ ?_
    (foldl_insert_sorted _ [] List.sorted_nil) hs
  have p1 := foldl_insert_perm (enumeration_leaves reordered (ascii "/")) []
  have p2 := foldl_insert_perm (enumeration_leaves resources (ascii "/")) []
  rw [← hl] at p2
  simp only [List.nil_append] at p1 p2
  exact p1.trans (hre.2.symm.trans p2.symm)

/-- The bundle with leaves `/a/b.txt`, `/a/c.txt`, `/d.txt`, listed in two
orders. -/
theorem C9_list_files_sorted_any_order_witness :
    List.Sorted strLe [ascii "/a/b.txt", ascii "/a/c.txt", ascii "/d.txt"] ∧
    balde_resources_list_files
      (.names (.cons (ascii "d.txt") .leaf
        (.cons (ascii "a/") (.inner (.names
          (.cons (ascii "c.txt") .leaf (.cons (ascii "b.txt") .leaf .nil)))) .nil)))
      = .ok [ascii "/a/b.txt", ascii "/a/c.txt", ascii "/d.txt"] := by
  have h := C9_list_files_sorted_any_order
    (.names (.cons (ascii "a/") (.inner (.names
      (.cons (ascii "b.txt") .leaf (.cons (ascii "c.txt") .leaf .nil))))
      (.cons (ascii "d.txt") .leaf .nil)))
    [ascii "/a/b.txt", ascii "/a/c.txt", ascii "/d.txt"] rfl
  refine ⟨h.1, h.2 _ ?_⟩
  refine Enumeration.Reorder.names (Children.Reorder.trans
    (Children.Reorder.inner _ (Children.Reorder.swap _ _ _ _ _)
      (Children.Reorder.cons _ _ Children.Reorder.nil))
    (Children.Reorder.swap _ _ _ _ _))

/-- C10 as stated fails: a bundle that lists the child name `a` twice under
the root gives the sequence `/a`, `/a`, in which a path occurs twice. -/
theorem C10_duplicate_names_are_kept :
    balde_resources_list_files
      (.names (.cons (ascii "a") .leaf (.cons (ascii "a") .leaf .nil)))
      = .ok [ascii "/a", ascii "/a"] ∧
    ¬ [ascii "/a", ascii "/a"].Nodup :=
  ⟨rfl, by decide⟩

/-- C10, amended: the sequence returned by a successful
`balde_resources_list_files` holds every leaf path exactly as many times as the
walk meets it, so no path occurs in it more than once exactly when the leaf
paths met by the walk are pairwise distinct. -/
theorem C10_list_files_keeps_multiplicity (resources : Enumeration) (l : List CStr)
    (h : balde_resources_list_files resources = .ok l) :
    l.Perm (enumeration_leaves resources (ascii "/")) ∧
    (l.Nodup ↔ (enumeration_leaves resources (ascii "/")).Nodup) := by
  obtain ⟨_, hl⟩ := list_files_ok h
  have p := foldl_insert_perm (enumeration_leaves resources (ascii "/")) []
  rw [← hl] at p
  simp only [List.nil_append] at p
  exact ⟨p, p.nodup_iff⟩

/-- A bundle with the two leaves `/d.txt` and `/a/b.txt`. -/
theorem C10_list_files_keeps_multiplicity_witness :
    [ascii "/a/b.txt", ascii "/d.txt"].Perm [ascii "/d.txt", ascii "/a/b.txt"] ∧
    ([ascii "/a/b.txt", ascii "/d.txt"].Nodup ↔
      [ascii "/d.txt", ascii "/a/b.txt"].Nodup) :=
  C10_list_files_keeps_multiplicity
    (.names (.cons (ascii "d.txt") .leaf
      (.cons (ascii "a/") (.inner (.names (.cons (ascii "b.txt") .leaf .nil))) .nil)))
    [ascii "/a/b.txt", ascii "/d.txt"] rfl


/-! ## Failing enumerations -/

mutual
/-- From an empty error slot the walk ends with the error of the first failing
enumeration in the slot, or with an empty slot when none fails. -/
theorem list_childrens_error : ∀ (enum : Enumeration) (path : CStr) (st : WalkState),
    st.error = none →
    (balde_resources_list_childrens enum path st).error = enumeration_first_failure enum
  | .failure e, path, st, h => by
    rw [balde_resources_list_childrens, h]
    rfl
  | .names cs, path, st, h => by
    rw [balde_resources_list_childrens, h, enumeration_first_failure]
    exact list_childrens_loop_error cs path st h
theorem list_childrens_loop_error : ∀ (cs : Children) (path : CStr) (st : WalkState),
    st.error = none →
    (list_childrens_loop cs path st).error = children_first_failure cs
  | .nil, path, st, h => by rw [list_childrens_loop, children_first_failure]; exact h
  | .cons name node rest, path, st, h => by
    have h1 := list_childrens_child_error node (path ++ name) st h
    rw [list_childrens_loop, children_first_failure]
    cases hf : node_first_failure node with
    | some e =>
      rw [hf] at h1
      rw [list_childrens_loop_keeps_error rest path _ (by rw [h1]; rfl), h1]
    | none =>
      rw [hf] at h1
      exact list_childrens_loop_error rest path _ h1
theorem list_childrens_child_error : ∀ (node : Node) (child : CStr) (st : WalkState),
    st.error = none →
    (list_childrens_child node child st).error = node_first_failure node
  | .leaf, child, st, h => by rw [list_childrens_child, node_first_failure]; exact h
  | .inner sub, child, st, h => by
    rw [list_childrens_child, node_first_failure]
    exact list_childrens_error sub child st h
end

/-- C11: when an enumeration fails, at the root or at a node the walk reaches,
`balde_resources_list_files` returns no sequence and hands the caller the
error of the first failing enumeration; when none fails it returns a sequence
and no error. -/
theorem C11_list_files_first_failure (resources : Enumeration) :
    (∀ e, enumeration_first_failure resources = some e →
      balde_resources_list_files resources = .error e) ∧
    (enumeration_first_failure resources = none →
      ∃ l, balde_resources_list_files resources = .ok l) ∧
    (enumeration_first_failure resources = none ↔ enumeration_ok resources = true) := by
  have herr := list_childrens_error resources (ascii "/") { list := [], error := none } rfl
  refine ⟨?_, ?_, ?_⟩
  · intro e he
    unfold balde_resources_list_files
    simp only []
    rw [herr, he]
  · intro he
    unfold balde_resources_list_files
    simp only []
    rw [herr, he]
    exact ⟨_, rfl⟩
  · constructor
    · intro he
      apply list_childrens_error_none resources (ascii "/") { list := [], error := none }
      rw [herr, he]
    · intro hok
      rw [← herr, list_childrens_ok _ _ _ hok rfl]

/-- A bundle whose root lists `a/`, `b/`, `c.txt`: enumerating `/a/` fails with
error 7, enumerating `/b/` would fail with error 9. -/
theorem C11_list_files_first_failure_witness :
    balde_resources_list_files
      (.names (.cons (ascii "a/") (.inner (.failure 7))
        (.cons (ascii "b/") (.inner (.failure 9))
        (.cons (ascii "c.txt") .leaf .nil)))) = .error 7 ∧
    (∃ l, balde_resources_list_files
      (.names (.cons (ascii "a/") (.inner (.names .nil))
        (.cons (ascii "c.txt") .leaf .nil))) = .ok l) :=
  ⟨(C11_list_files_first_failure _).1 7 rfl, (C11_list_files_first_failure _).2.1 rfl⟩

/-- C18: the root lists `a/` then `b.txt`, and enumerating `/a/` fails with
error 7.  Right after the failing call the list is still empty, but the loop
goes on: `/b.txt` is tested and inserted, so the list at return is not the
list at the moment of the failure. -/
theorem C18_walk_goes_on_after_failure :
    list_childrens_child (.inner (.failure 7)) (ascii "/a/") { list := [], error := none }
      = { list := [], error := some 7 } ∧
    balde_resources_list_childrens
      (.names (.cons (ascii "a/") (.inner (.failure 7)) (.cons (ascii "b.txt") .leaf .nil)))
      (ascii "/") { list := [], error := none }
      = { list := [ascii "/b.txt"], error := some 7 } := by
  decide

/-! ## Leaf paths -/

mutual
/-- Every path the walk lists below `p` is a leaf below `p`. -/
theorem leafBelow_of_mem_enumeration_leaves : ∀ (e : Enumeration) (p q : CStr),
    q ∈ enumeration_leaves e p → LeafBelow e p q
  | .failure _, p, q, h => by simp [enumeration_leaves] at h
  | .names cs, p, q, h => by
    rw [enumeration_leaves] at h
    rcases leafBelow_of_mem_children_leaves cs p q h with ⟨name, h1, h2⟩ | ⟨name, sub, h1, h2⟩
    · rw [h2]; exact LeafBelow.leaf p h1
    · exact LeafBelow.inner h1 h2
theorem leafBelow_of_mem_children_leaves : ∀ (cs : Children) (p q : CStr),
    q ∈ children_leaves cs p →
    (∃ name, ChildAt cs name .leaf ∧ q = p ++ name) ∨
    (∃ name sub, ChildAt cs name (.inner sub) ∧ LeafBelow sub (p ++ name) q)
  | .nil, p, q, h => by simp [children_leaves] at h
  | .cons name node rest, p, q, h => by
    rw [children_leaves, List.mem_append] at h
    rcases h with h | h
    · rcases leafBelow_of_mem_node_leaves node (p ++ name) q h with ⟨e1, e2⟩ | ⟨sub, e1, e2⟩
      · subst e1; exact Or.inl ⟨name, ChildAt.here _ _ _, e2⟩
      · subst e1; exact Or.inr ⟨name, sub, ChildAt.here _ _ _, e2⟩
    · rcases leafBelow_of_mem_children_leaves rest p q h with ⟨n, h1, h2⟩ | ⟨n, sub, h1, h2⟩
      · exact Or.inl ⟨n, ChildAt.later _ _ h1, h2⟩
      · exact Or.inr ⟨n, sub, ChildAt.later _ _ h1, h2⟩
theorem leafBelow_of_mem_node_leaves : ∀ (node : Node) (c q : CStr),
    q ∈ node_leaves node c →
    (node = .leaf ∧ q = c) ∨ (∃ sub, node = .inner sub ∧ LeafBelow sub c q)
  | .leaf, c, q, h => by
    rw [node_leaves, List.mem_singleton] at h
    exact Or.inl ⟨rfl, h⟩
  | .inner sub, c, q, h => by
    rw [node_leaves] at h
    exact Or.inr ⟨sub, rfl, leafBelow_of_mem_enumeration_leaves sub c q h⟩
end

theorem mem_children_leaves_of_childAt {cs : Children} {name : CStr} {node : Node}
    (h : ChildAt cs name node) (p q : CStr) (hq : q ∈ node_leaves node (p ++ name)) :
    q ∈ children_leaves cs p := by
  induction h with
  | here name node rest =>
    rw [children_leaves, List.mem_append]; exact Or.inl hq
  | later name node _ ih =>
    rw [children_leaves, List.mem_append]; exact Or.inr (ih hq)

/-- Every leaf below `p` is listed by the walk below `p`. -/
theorem mem_enumeration_leaves_of_leafBelow {e : Enumeration} {p q : CStr}
    (h : LeafBelow e p q) : q ∈ enumeration_leaves e p := by
  induction h with
  | leaf p hc =>
    rw [enumeration_leaves]
    exact mem_children_leaves_of_childAt hc p _ (by rw [node_leaves]; exact List.mem_singleton.2 rfl)
  | inner hc _ ih =>
    rw [enumeration_leaves]
    exact mem_children_leaves_of_childAt hc _ _ (by rw [node_leaves]; exact ih)

/-- C19: when no enumeration of the bundle fails, `balde_resources_list_files`
returns a sequence that holds exactly the paths obtained from `/` by child
names along a chain of enumerations and ending at a leaf; provided no path
of the bundle is both a leaf and a node that is not a leaf, no such node's
path is in the sequence. -/
theorem C19_list_files_exactly_leaves (resources : Enumeration)
    (h : enumeration_ok resources = true) :
    ∃ l, balde_resources_list_files resources = .ok l ∧
      (∀ q, q ∈ l ↔ LeafBelow resources (ascii "/") q) ∧
      ((∀ q, ¬ (LeafBelow resources (ascii "/") q ∧ InnerBelow resources (ascii "/") q)) →
        ∀ q, InnerBelow resources (ascii "/") q → q ∉ l) := by
  refine ⟨_, list_files_of_ok h, ?_, ?_⟩
  · intro q
    rw [(foldl_insert_perm _ []).mem_iff, List.nil_append]
    exact ⟨leafBelow_of_mem_enumeration_leaves _ _ _, mem_enumeration_leaves_of_leafBelow⟩
  · intro hc q hq hmem
    rw [(foldl_insert_perm _ []).mem_iff, List.nil_append] at hmem
    exact hc q ⟨leafBelow_of_mem_enumeration_leaves _ _ _ hmem, hq⟩

/-- The bundle with the leaves `/a/b.txt` and `/d.txt`: both are in the
sequence, and the path `/a/` of the inner node is not. -/
theorem C19_list_files_exactly_leaves_witness :
    LeafBelow (.names (.cons (ascii "a/") (.inner (.names (.cons (ascii "b.txt") .leaf .nil)))
      (.cons (ascii "d.txt") .leaf .nil))) (ascii "/") (ascii "/a/b.txt") ∧
    ∃ l, balde_resources_list_files
      (.names (.cons (ascii "a/") (.inner (.names (.cons (ascii "b.txt") .leaf .nil)))
        (.cons (ascii "d.txt") .leaf .nil))) = .ok l ∧ ascii "/a/" ∉ l := by
  obtain ⟨l, hl, hiff, hin⟩ := C19_list_files_exactly_leaves
    (.names (.cons (ascii "a/") (.inner (.names (.cons (ascii "b.txt") .leaf .nil)))
      (.cons (ascii "d.txt") .leaf .nil))) rfl
  have hl2 : balde_resources_list_files
      (.names (.cons (ascii "a/") (.inner (.names (.cons (ascii "b.txt") .leaf .nil)))
        (.cons (ascii "d.txt") .leaf .nil))) = .ok [ascii "/a/b.txt", ascii "/d.txt"] := rfl
  have e : l = [ascii "/a/b.txt", ascii "/d.txt"] := by
    rw [hl] at hl2; exact Except.ok.inj hl2
  have hinner : ∀ q, InnerBelow (.names (.cons (ascii "a/")
      (.inner (.names (.cons (ascii "b.txt") .leaf .nil)))
      (.cons (ascii "d.txt") .leaf .nil))) (ascii "/") q → q = ascii "/a/" := by
    intro q hq
    cases hq with
    | here p hc =>
      cases hc with
      | here => rfl
      | later _ _ hc => cases hc with
        | later _ _ hc => cases hc
    | inner hc hb =>
      cases hc with
      | here => cases hb with
        | here p hc => cases hc with
          | later _ _ hc => cases hc
        | inner hc hb => cases hc with
          | later _ _ hc => cases hc
      | later _ _ hc => cases hc with
        | later _ _ hc => cases hc
  refine ⟨(hiff _).1 (by rw [e]; decide), l, hl, ?_⟩
  refine hin ?_ _ (InnerBelow.here _ (ChildAt.here _ _ _))
  rintro q ⟨h1, h2⟩
  have := (hiff q).2 h1
  rw [hinner q h2, e] at this
  revert this
  decide

/-! ## Claims about `balde_resources_load` -/

theorem record_for_ok {resources : GResource} {path : CStr} {data : List Nat}
    (h : resources.lookup_data path = .ok data) :
    record_for resources path = record_of path data := by
  rw [record_for, h]

/-- The loop over paths whose lookups all succeed appends one record per path
and looks every path up. -/
theorem load_loop_ok (resources : GResource) (ps : List CStr) (app : balde_app_t)
    (seen : List CStr) (h : ∀ p ∈ ps, ∃ d, resources.lookup_data p = .ok d) :
    load_loop resources ps app seen =
      { app := { app with
          static_resources := app.static_resources ++ ps.map (record_for resources) },
        lookups := seen ++ ps, error_writes := [] } := by
  induction ps generalizing app seen with
  | nil => simp [load_loop]
  | cons p ps ih =>
    obtain ⟨d, hd⟩ := h p (List.mem_cons_self _ _)
    rw [load_loop]
    simp only [hd]
    rw [ih _ _ (fun q hq => h q (List.mem_cons_of_mem _ hq))]
    simp [record_for_ok hd, record_of]

/-- The loop stops at the first failing lookup: the records of the paths
before it are appended, its error goes to the slot, and no later path is
looked up. -/
theorem load_loop_fail (resources : GResource) (pre post : List CStr) (pk : CStr) (e : GError)
    (app : balde_app_t) (seen : List CStr)
    (h : ∀ p ∈ pre, ∃ d, resources.lookup_data p = .ok d)
    (hk : resources.lookup_data pk = .error e) :
    load_loop resources (pre ++ pk :: post) app seen =
      { app := { static_resources := app.static_resources ++ pre.map (record_for resources),
                 error := g_propagate_error app.error e },
        lookups := seen ++ pre ++ [pk],
        error_writes := if app.error.isNone then [e] else [] } := by
  induction pre generalizing app seen with
  | nil =>
    rw [List.nil_append, load_loop]
    simp only [hk]
    simp
  | cons p pre ih =>
    obtain ⟨d, hd⟩ := h p (List.mem_cons_self _ _)
    rw [List.cons_append, load_loop]
    simp only [hd]
    rw [ih _ _ (fun q hq => h q (List.mem_cons_of_mem _ hq))]
    simp [record_for_ok hd, record_of]

/-- C12: from an empty error slot, when the sorted path sequence is
`pre ++ pk :: post`, the lookups of `pre` succeed and the lookup of `pk` fails
with `e`, then after `balde_resources_load` the slot holds `e`, the table is
the table before followed by the records of `pre` in order, and the paths
looked up are those of `pre` and `pk`, none of `post`. -/
theorem C12_load_stops_at_first_failing_lookup (app : balde_app_t) (resources : GResource)
    (pre post : List CStr) (pk : CStr) (e : GError)
    (h0 : app.error = none)
    (hl : balde_resources_list_files resources.tree = .ok (pre ++ pk :: post))
    (hpre : ∀ p ∈ pre, ∃ d, resources.lookup_data p = .ok d)
    (hk : resources.lookup_data pk = .error e) :
    (balde_resources_load app resources).app.error = some e ∧
    (balde_resources_load app resources).app.static_resources =
      app.static_resources ++ pre.map (record_for resources) ∧
    (balde_resources_load app resources).lookups = pre ++ [pk] := by
  rw [balde_resources_load, h0]
  simp only [Option.isSome_none, Bool.false_eq_true, if_false, hl]
  rw [load_loop_fail resources pre post pk e app [] hpre hk, h0]
  exact ⟨rfl, rfl, by simp⟩

/-- Three paths `/a`, `/b`, `/c` whose second lookup fails with error 5: the
slot holds 5, only the record of `/a` is added, `/c` is not looked up. -/
theorem C12_load_stops_at_first_failing_lookup_witness :
    (balde_resources_load { static_resources := [], error := none }
      { tree := .names (.cons (ascii "a") .leaf (.cons (ascii "b") .leaf
          (.cons (ascii "c") .leaf .nil))),
        lookup_data := fun p => if p = ascii "/b" then .error 5 else .ok p }).app
      = { static_resources := [{ name := ascii "/a", content := ascii "/a", type := none }],
          error := some 5 } ∧
    (balde_resources_load { static_resources := [], error := none }
      { tree := .names (.cons (ascii "a") .leaf (.cons (ascii "b") .leaf
          (.cons (ascii "c") .leaf .nil))),
        lookup_data := fun p => if p = ascii "/b" then .error 5 else .ok p }).lookups
      = [ascii "/a", ascii "/b"] := by
  have h := C12_load_stops_at_first_failing_lookup { static_resources := [], error := none }
    { tree := .names (.cons (ascii "a") .leaf (.cons (ascii "b") .leaf
        (.cons (ascii "c") .leaf .nil))),
      lookup_data := fun p => if p = ascii "/b" then .error 5 else .ok p }
    [ascii "/a"] [ascii "/c"] (ascii "/b") 5 rfl rfl
    (by intro p hp; rw [List.mem_singleton] at hp; subst hp; exact ⟨_, rfl⟩) rfl
  obtain ⟨h1, h2, h3⟩ := h
  refine ⟨?_, h3⟩
  cases hrun : (balde_resources_load { static_resources := [], error := none }
    { tree := .names (.cons (ascii "a") .leaf (.cons (ascii "b") .leaf
        (.cons (ascii "c") .leaf .nil))),
      lookup_data := fun p => if p = ascii "/b" then .error 5 else .ok p }).app with
  | mk sr err =>
    rw [hrun] at h1 h2
    simp only at h1 h2
    rw [h1, h2]
    rfl

/-- When no enumeration fails, the returned sequence holds exactly the leaf
paths below `/`. -/
theorem list_files_mem_iff (resources : Enumeration) (h : enumeration_ok resources = true) :
    ∃ l, balde_resources_list_files resources = .ok l ∧
      ∀ q, q ∈ l ↔ LeafBelow resources (ascii "/") q := by
  refine ⟨_, list_files_of_ok h, fun q => ?_⟩
  rw [(foldl_insert_perm _ []).mem_iff, List.nil_append]
  exact ⟨leafBelow_of_mem_enumeration_leaves _ _ _, mem_enumeration_leaves_of_leafBelow⟩

/-- C13: from an empty error slot, when no enumeration fails and the lookup of
every leaf path succeeds, `balde_resources_load` leaves the table before the
call followed by one record per path of the walker's sorted sequence, in that
order, each with the path as name and no type, and the slot is still empty. -/
theorem C13_load_appends_all_records (app : balde_app_t) (resources : GResource)
    (h0 : app.error = none) (hok : enumeration_ok resources.tree = true)
    (hall : ∀ p, LeafBelow resources.tree (ascii "/") p →
      ∃ d, resources.lookup_data p = .ok d) :
    ∃ ps, balde_resources_list_files resources.tree = .ok ps ∧
      (balde_resources_load app resources).app.static_resources =
        app.static_resources ++ ps.map (record_for resources) ∧
      (balde_resources_load app resources).app.error = none ∧
      ∀ p ∈ ps, (record_for resources p).name = p ∧ (record_for resources p).type = none := by
  obtain ⟨ps, hps, hiff⟩ := list_files_mem_iff resources.tree hok
  have hall' : ∀ p ∈ ps, ∃ d, resources.lookup_data p = .ok d :=
    fun p hp => hall p ((hiff p).1 hp)
  refine ⟨ps, hps, ?_, ?_, ?_⟩
  · rw [balde_resources_load, h0]
    simp only [Option.isSome_none, Bool.false_eq_true, if_false, hps]
    rw [load_loop_ok resources ps app [] hall']
  · rw [balde_resources_load, h0]
    simp only [Option.isSome_none, Bool.false_eq_true, if_false, hps]
    rw [load_loop_ok resources ps app [] hall']
    exact h0
  · intro p hp
    obtain ⟨d, hd⟩ := hall' p hp
    rw [record_for_ok hd]
    exact ⟨rfl, rfl⟩

/-- A bundle with the leaves `/a` and `/b`, both lookups succeeding. -/
theorem C13_load_appends_all_records_witness :
    ∃ ps, balde_resources_list_files
        (.names (.cons (ascii "b") .leaf (.cons (ascii "a") .leaf .nil))) = .ok ps ∧
      (balde_resources_load { static_resources := [record_of (ascii "/x") [1]], error := none }
        { tree := .names (.cons (ascii "b") .leaf (.cons (ascii "a") .leaf .nil)),
          lookup_data := fun p => .ok p }).app.static_resources =
        [record_of (ascii "/x") [1]] ++ ps.map (record_for
          { tree := .names (.cons (ascii "b") .leaf (.cons (ascii "a") .leaf .nil)),
            lookup_data := fun p => .ok p }) := by
  obtain ⟨ps, h1, h2, _⟩ := C13_load_appends_all_records
    { static_resources := [record_of (ascii "/x") [1]], error := none }
    { tree := .names (.cons (ascii "b") .leaf (.cons (ascii "a") .leaf .nil)),
      lookup_data := fun p => .ok p } rfl rfl (fun p _ => ⟨p, rfl⟩)
  exact ⟨ps, h1, h2⟩

theorem load_loop_first_failure (resources : GResource) (ps : List CStr) (app : balde_app_t)
    (seen : List CStr) (h0 : app.error = none) :
    (load_loop resources ps app seen).error_writes =
      (first_lookup_failure resources ps).toList ∧
    (load_loop resources ps app seen).app.error = first_lookup_failure resources ps := by
  induction ps generalizing app seen with
  | nil => rw [load_loop, first_lookup_failure]; exact ⟨rfl, h0⟩
  | cons p ps ih =>
    rw [load_loop, first_lookup_failure]
    cases hd : resources.lookup_data p with
    | error e => simp [h0, g_propagate_error]
    | ok d => exact ih _ _ h0

/-- A failing enumeration makes `balde_resources_list_files` fail with the
error of the first one. -/
theorem list_files_of_first_failure {resources : Enumeration} {e : GError}
    (h : enumeration_first_failure resources = some e) :
    balde_resources_list_files resources = .error e := by
  unfold balde_resources_list_files
  simp only []
  rw [list_childrens_error resources (ascii "/") { list := [], error := none } rfl, h]

/-- C14: a call of `balde_resources_load` on a state whose error slot holds an
error returns with the state unchanged, slot and table, and stores nothing;
a call on a state with an empty slot stores at most one error into the slot,
the first failure it meets: the first failing enumeration or else the first
failing lookup. -/
theorem C14_error_slot_written_once (app : balde_app_t) (resources : GResource) :
    (∀ e0, app.error = some e0 →
      balde_resources_load app resources =
        { app := app, lookups := [], error_writes := [] }) ∧
    (app.error = none →
      (balde_resources_load app resources).error_writes =
        (first_load_failure resources).toList ∧
      (balde_resources_load app resources).app.error = first_load_failure resources ∧
      (balde_resources_load app resources).error_writes.length ≤ 1) ∧
    (∀ e, enumeration_first_failure resources.tree = some e →
      first_load_failure resources = some e) ∧
    (∀ ps, balde_resources_list_files resources.tree = .ok ps →
      first_load_failure resources = first_lookup_failure resources ps) := by
  refine ⟨?_, ?_, ?_, ?_⟩
  · intro e0 h
    rw [balde_resources_load, h]
    rfl
  · intro h0
    have key : (balde_resources_load app resources).error_writes =
          (first_load_failure resources).toList ∧
        (balde_resources_load app resources).app.error = first_load_failure resources := by
      rw [balde_resources_load, first_load_failure, h0]
      simp only [Option.isSome_none, Bool.false_eq_true, if_false]
      cases hl : balde_resources_list_files resources.tree with
      | error e => simp [g_propagate_error]
      | ok ps => exact load_loop_first_failure resources ps _ [] h0
    refine ⟨key.1, key.2, ?_⟩
    rw [key.1]
    cases first_load_failure resources <;> simp
  · intro e he
    rw [first_load_failure, list_files_of_first_failure he]
  · intro ps hps
    rw [first_load_failure, hps]

/-- A state whose slot holds error 3 is left as it is; from an empty slot the
failing lookup of `/a` (error 5) is the one stored, the later failing lookup
of `/b` (error 6) is not. -/
theorem C14_error_slot_written_once_witness :
    balde_resources_load { static_resources := [], error := some 3 }
      { tree := .names (.cons (ascii "a") .leaf (.cons (ascii "b") .leaf .nil)),
        lookup_data := fun p => if p = ascii "/a" then .error 5 else .error 6 }
      = { app := { static_resources := [], error := some 3 }, lookups := [],
          error_writes := [] } ∧
    (balde_resources_load { static_resources := [], error := none }
      { tree := .names (.cons (ascii "a") .leaf (.cons (ascii "b") .leaf .nil)),
        lookup_data := fun p => if p = ascii "/a" then .error 5 else .error 6 }).error_writes
      = [5] :=
  ⟨(C14_error_slot_written_once _ _).1 3 rfl,
   ((C14_error_slot_written_once { static_resources := [], error := none }
      { tree := .names (.cons (ascii "a") .leaf (.cons (ascii "b") .leaf .nil)),
        lookup_data := fun p => if p = ascii "/a" then .error 5 else .error 6 }).2.1 rfl).1⟩

theorem takeWhile_nonzero_of_not_mem (d : List Nat) (h : 0 ∉ d) :
    d.takeWhile (· ≠ 0) = d := by
  induction d with
  | nil => rfl
  | cons x xs ih =>
    have hx : x ≠ 0 := fun e => h (by simp [e])
    rw [List.takeWhile_cons_of_pos (by simpa using hx),
      ih (fun e => h (List.mem_cons_of_mem _ e))]

theorem takeWhile_nonzero_append (pre post : List Nat) (h : 0 ∉ pre) :
    (pre ++ 0 :: post).takeWhile (· ≠ 0) = pre := by
  induction pre with
  | nil => simp
  | cons x xs ih =>
    have hx : x ≠ 0 := fun e => h (by simp [e])
    rw [List.cons_append, List.takeWhile_cons_of_pos (by simpa using hx),
      ih (fun e => h (List.mem_cons_of_mem _ e))]

/-- The content `g_strndup (data, size)` of a record, read as a string: the
bytes of the data before its first zero byte, all of them when there is
none. -/
theorem record_of_content (path : CStr) (d : List Nat) :
    (record_of path d).name = path ∧
    (record_of path d).content = d.takeWhile (· ≠ 0) ∧
    (∀ pre post, d = pre ++ 0 :: post → 0 ∉ pre → (record_of path d).content = pre) ∧
    (0 ∉ d → (record_of path d).content = d) ∧
    (record_of path d).content.length ≤ d.length ∧
    (record_of path d).content <+: d := by
  have hc : (record_of path d).content = d.takeWhile (· ≠ 0) := by
    simp [record_of, g_strndup]
  refine ⟨rfl, hc, ?_, ?_, ?_, ?_⟩
  · intro pre post hd hpre
    rw [hc, hd, takeWhile_nonzero_append pre post hpre]
  · intro h
    rw [hc, takeWhile_nonzero_of_not_mem d h]
  · rw [hc]
    exact (List.takeWhile_sublist _).length_le
  · rw [hc]
    exact List.takeWhile_prefix _

/-- The records the loop appends are those of paths whose lookup succeeds. -/
theorem load_loop_records (resources : GResource) (ps : List CStr) (app : balde_app_t)
    (seen : List CStr) :
    ∃ added, (load_loop resources ps app seen).app.static_resources =
        app.static_resources ++ added ∧
      ∀ r ∈ added, ∃ p d, p ∈ ps ∧ resources.lookup_data p = .ok d ∧ r = record_of p d := by
  induction ps generalizing app seen with
  | nil => exact ⟨[], by simp [load_loop], by simp⟩
  | cons p ps ih =>
    rw [load_loop]
    cases hd : resources.lookup_data p with
    | error e => exact ⟨[], by simp, by simp⟩
    | ok d =>
      obtain ⟨added, h1, h2⟩ := ih
        { app with static_resources := app.static_resources ++
            [{ name := p, content := g_strndup d d.length, type := none }] } (seen ++ [p])
      refine ⟨record_of p d :: added, ?_, ?_⟩
      · simp only [h1]
        simp [record_of]
      · intro r hr
        rcases List.mem_cons.1 hr with e | e
        · exact ⟨p, d, List.mem_cons_self _ _, hd, e⟩
        · obtain ⟨q, dq, hq, hdq, e2⟩ := h2 r e
          exact ⟨q, dq, List.mem_cons_of_mem _ hq, hdq, e2⟩

/-- C20: every record `balde_resources_load` appends comes from a path whose
lookup succeeded with some bytes `d`, and its content, read as a NUL-terminated
string, is `d` up to but not including its first zero byte, the whole of `d`
when `d` holds no zero byte, and never longer than `d`; e.g. the bytes
`a b 0 c` give the content `ab`. -/
theorem C20_record_content_stops_at_zero (app : balde_app_t) (resources : GResource) :
    (∃ added, (balde_resources_load app resources).app.static_resources =
        app.static_resources ++ added ∧
      ∀ r ∈ added, ∃ p d, resources.lookup_data p = .ok d ∧ r.name = p ∧
        (∀ pre post, d = pre ++ 0 :: post → 0 ∉ pre → r.content = pre) ∧
        (0 ∉ d → r.content = d) ∧
        r.content.length ≤ d.length ∧ r.content <+: d) ∧
    (balde_resources_load { static_resources := [], error := none }
      { tree := .names (.cons (ascii "f") .leaf .nil),
        lookup_data := fun _ => .ok [97, 98, 0, 99] }).app.static_resources =
      [{ name := ascii "/f", content := ascii "ab", type := none }] := by
  refine ⟨?_, by decide⟩
  have hrec : ∀ (ps : List CStr) (a : balde_app_t) (seen : List CStr),
      ∃ added, (load_loop resources ps a seen).app.static_resources =
          a.static_resources ++ added ∧
        ∀ r ∈ added, ∃ p d, resources.lookup_data p = .ok d ∧ r.name = p ∧
          (∀ pre post, d = pre ++ 0 :: post → 0 ∉ pre → r.content = pre) ∧
          (0 ∉ d → r.content = d) ∧
          r.content.length ≤ d.length ∧ r.content <+: d := by
    intro ps a seen
    obtain ⟨added, h1, h2⟩ := load_loop_records resources ps a seen
    refine ⟨added, h1, fun r hr => ?_⟩
    obtain ⟨p, d, _, hd, e⟩ := h2 r hr
    have hc := record_of_content p d
    rw [← e] at hc
    exact ⟨p, d, hd, hc.1, hc.2.2.1, hc.2.2.2.1, hc.2.2.2.2.1, hc.2.2.2.2.2⟩
  rw [balde_resources_load]
  by_cases h : app.error.isSome = true
  · rw [if_pos h]
    exact ⟨[], by simp, by simp⟩
  · rw [if_neg h]
    cases hl : balde_resources_list_files resources.tree with
    | error e => exact ⟨[], by simp, by simp⟩
    | ok ps => exact hrec ps app []

/-- The bytes `a b 0 c` are stored as the content `ab`. -/
theorem C20_record_content_stops_at_zero_witness :
    (balde_resources_load { static_resources := [], error := none }
      { tree := .names (.cons (ascii "f") .leaf .nil),
        lookup_data := fun _ => .ok [97, 98, 0, 99] }).app.static_resources =
      [{ name := ascii "/f", content := ascii "ab", type := none }] :=
  (C20_record_content_stops_at_zero { static_resources := [], error := none }
    { tree := .names (.cons (ascii "f") .leaf .nil),
      lookup_data := fun _ => .ok [97, 98, 0, 99] }).2

/-! ## Claims about `main` -/

theorem g_str_has_suffix_iff (str suffix : CStr) :
    g_str_has_suffix str suffix = true ↔ ∃ stem, str = stem ++ suffix := by
  simp only [g_str_has_suffix, Bool.and_eq_true, decide_eq_true_eq]
  constructor
  · rintro ⟨_, h2⟩
    refine ⟨str.take (str.length - suffix.length), ?_⟩
    conv_lhs => rw [← List.take_append_drop (str.length - suffix.length) str]
    rw [h2]
  · rintro ⟨stem, rfl⟩
    simp

theorem main_write_status (fs : FileSystem) (output source : CStr) (calls : List FsCall) :
    (main_write fs output source calls).status = 0 ↔ fs.writable output = true := by
  unfold main_write
  by_cases h : fs.writable output = true
  · rw [if_pos h]; simp [EXIT_SUCCESS, h]
  · rw [if_neg h]; simp [EXIT_FAILURE, h]

/-- C15: `main` returns status 0 exactly when it is given two arguments after
the program name, the output path ends in `.c` and the input file can be read,
or the output path ends in `.h`, and writing the output file succeeds; in
every other case it returns the nonzero status `EXIT_FAILURE`. -/
theorem C15_exit_status (argv : List CStr) (fs : FileSystem) :
    ((main argv fs).status = 0 ↔
      ∃ prog input output, argv = [prog, input, output] ∧
        (((∃ stem, output = stem ++ ascii ".c") ∧ (fs.contents input).isSome = true) ∨
          (∃ stem, output = stem ++ ascii ".h")) ∧
        fs.writable output = true) ∧
    ((main argv fs).status = 0 ∨ (main argv fs).status = 1) := by
  have hsplit : (∃ prog input output, argv = [prog, input, output]) ∨
      (∀ prog input output, argv ≠ [prog, input, output]) := by
    by_cases h : ∃ prog input output, argv = [prog, input, output]
    · exact Or.inl h
    · exact Or.inr (fun a b c e => h ⟨a, b, c, e⟩)
  rcases hsplit with ⟨prog, input, output, rfl⟩ | hno
  · have hc := g_str_has_suffix_iff output (ascii ".c")
    have hh := g_str_has_suffix_iff output (ascii ".h")
    simp only [main]
    by_cases h1 : g_str_has_suffix output (ascii ".c") = true
    · rw [if_pos h1]
      cases hr : fs.contents input with
      | none =>
        refine ⟨⟨fun h => by simp [EXIT_FAILURE] at h, ?_⟩, Or.inr rfl⟩
        rintro ⟨p, i, o, e, hcase, hw⟩
        simp only [List.cons.injEq, and_true] at e
        obtain ⟨_, rfl, rfl⟩ := e
        rcases hcase with ⟨_, hread⟩ | hsuf
        · rw [hr] at hread; simp at hread
        · exfalso
          obtain ⟨s1, e1⟩ := hc.1 h1
          obtain ⟨s2, e2⟩ := hsuf
          have := congrArg List.reverse (e1.symm.trans e2)
          simp [ascii] at this
      | some src =>
        simp only []
        constructor
        · rw [main_write_status]
          constructor
          · intro hw
            exact ⟨prog, input, output, rfl, Or.inl ⟨hc.1 h1, by rw [hr]; rfl⟩, hw⟩
          · rintro ⟨p, i, o, e, _, hw⟩
            simp only [List.cons.injEq, and_true] at e
            obtain ⟨_, _, rfl⟩ := e
            exact hw
        · unfold main_write
          split_ifs
          · exact Or.inl rfl
          · exact Or.inr rfl
    · rw [if_neg h1]
      by_cases h2 : g_str_has_suffix output (ascii ".h") = true
      · rw [if_pos h2]
        constructor
        · rw [main_write_status]
          constructor
          · intro hw
            exact ⟨prog, input, output, rfl, Or.inr (hh.1 h2), hw⟩
          · rintro ⟨p, i, o, e, _, hw⟩
            simp only [List.cons.injEq, and_true] at e
            obtain ⟨_, _, rfl⟩ := e
            exact hw
        · unfold main_write
          split_ifs
          · exact Or.inl rfl
          · exact Or.inr rfl
      · rw [if_neg h2]
        refine ⟨⟨fun h => by simp [EXIT_FAILURE] at h, ?_⟩, Or.inr rfl⟩
        rintro ⟨p, i, o, e, hcase, _⟩
        simp only [List.cons.injEq, and_true] at e
        obtain ⟨_, _, rfl⟩ := e
        rcases hcase with ⟨hsuf, _⟩ | hsuf
        · exact absurd (hc.2 hsuf) h1
        · exact absurd (hh.2 hsuf) h2
  · have hm : main argv fs = { status := EXIT_FAILURE, fs := fs, calls := [] } := by
      unfold main
      split
      · exact absurd rfl (hno _ _ _)
      · rfl
    rw [hm]
    refine ⟨⟨fun h => by simp [EXIT_FAILURE] at h, ?_⟩, Or.inr rfl⟩
    rintro ⟨p, i, o, e, _⟩
    exact absurd e (hno _ _ _)

/-- C16: with two arguments and an output path that ends neither in `.c` nor
in `.h`, `main` returns a nonzero status and makes no call on the file system,
neither a read of the input file nor a write: the file system is as before. -/
theorem C16_unknown_extension_no_effect (prog input output : CStr) (fs : FileSystem)
    (hc : ¬ ∃ stem, output = stem ++ ascii ".c")
    (hh : ¬ ∃ stem, output = stem ++ ascii ".h") :
    (main [prog, input, output] fs).status ≠ 0 ∧
    (main [prog, input, output] fs).calls = [] ∧
    (main [prog, input, output] fs).fs = fs := by
  have h1 : ¬ g_str_has_suffix output (ascii ".c") = true :=
    fun h => hc ((g_str_has_suffix_iff _ _).1 h)
  have h2 : ¬ g_str_has_suffix output (ascii ".h") = true :=
    fun h => hh ((g_str_has_suffix_iff _ _).1 h)
  have hm : main [prog, input, output] fs =
      { status := EXIT_FAILURE, fs := fs, calls := [] } := by
    simp only [main, if_neg h1, if_neg h2]
  rw [hm]
  exact ⟨by simp [EXIT_FAILURE], rfl, rfl⟩

/-- The output path `out.xyz`. -/
theorem C16_unknown_extension_no_effect_witness :
    (main [ascii "balde-template-gen", ascii "in.html", ascii "out.xyz"]
      { contents := fun _ => some [], writable := fun _ => true }).status ≠ 0 ∧
    (main [ascii "balde-template-gen", ascii "in.html", ascii "out.xyz"]
      { contents := fun _ => some [], writable := fun _ => true }).calls = [] :=
  have h := C16_unknown_extension_no_effect (ascii "balde-template-gen") (ascii "in.html")
    (ascii "out.xyz") { contents := fun _ => some [], writable := fun _ => true }
    (fun h => by rw [← g_str_has_suffix_iff] at h; revert h; decide)
    (fun h => by rw [← g_str_has_suffix_iff] at h; revert h; decide)
  ⟨h.1, h.2.1⟩

/-- With the output path `out.h` the input file is not read: the run succeeds
although no file can be read. -/
theorem C15_exit_status_witness :
    (main [ascii "balde-template-gen", ascii "missing.html", ascii "out.h"]
      { contents := fun _ => none, writable := fun _ => true }).status = 0 :=
  (C15_exit_status [ascii "balde-template-gen", ascii "missing.html", ascii "out.h"]
    { contents := fun _ => none, writable := fun _ => true }).1.2
    ⟨_, _, _, rfl, Or.inr ⟨ascii "out", rfl⟩, rfl⟩

/-! ## Rendering gives back the template -/

theorem expand_template_skip (tmpl_var : CStr → CStr) (k : Nat) (s : CStr) :
    expand_template tmpl_var k s = expand_template tmpl_var 0 (s.drop k) := by
  induction s generalizing k with
  | nil => cases k <;> rfl
  | cons c cs ih =>
    cases k with
    | zero => rfl
    | succ k => simp only [expand_template, List.drop_succ_cons]; exact ih k

/-- The compiler reads the image of a byte below 256 back as that byte. -/
theorem c_string_literal_escape_byte (c : Nat) (hc : c < 256) (x : CStr) :
    c_string_literal .text (escape_byte c ++ x) = c :: c_string_literal .text x := by
  rcases escape_byte_cases c with ⟨h, e⟩ | ⟨h, e⟩ | ⟨h, e⟩ | ⟨h, e⟩ | ⟨h, e⟩ | ⟨h, e⟩ | ⟨h, e⟩ |
    ⟨h, e⟩ | ⟨h, e⟩ | ⟨_, _, h1, h2, e⟩
  · rw [e, h]; rfl
  · rw [e, h]; rfl
  · rw [e, h]; rfl
  · rw [e, h]; rfl
  · rw [e, h]; rfl
  · rw [e, h]; rfl
  · rw [e, h]; rfl
  · rw [e, h]; rfl
  · rw [e]
    have d1 : 48 ≤ 48 + c / 64 % 8 ∧ 48 + c / 64 % 8 ≤ 55 := by omega
    have d2 : 48 ≤ 48 + c / 8 % 8 ∧ 48 + c / 8 % 8 ≤ 55 := by omega
    have d3 : 48 ≤ 48 + c % 8 ∧ 48 + c % 8 ≤ 55 := by omega
    simp only [List.cons_append, List.nil_append, c_string_literal, if_true, if_pos d1,
      if_pos d2, if_pos d3]
    congr 1
    omega
  · rw [e]
    show c_string_literal .text (c :: x) = _
    rw [c_string_literal, if_neg h1]

theorem c_string_literal_plain (p x : CStr) (hp : 92 ∉ p) :
    c_string_literal .text (p ++ x) = p ++ c_string_literal .text x := by
  induction p with
  | nil => rfl
  | cons a p ih =>
    have ha : a ≠ 92 := fun e => hp (by simp [e])
    rw [List.cons_append, c_string_literal, if_neg ha,
      ih (fun e => hp (List.mem_cons_of_mem _ e))]
    rfl

/-- At the start of the escaped text the pattern matches exactly when it
matches at the start of the template, with the same group and length. -/
theorem re_variable_escaped (t : CStr) :
    re_variable (escaped_perc_source t) = re_variable t := by
  cases h1 : re_variable t with
  | some r =>
    obtain ⟨g, n⟩ := r
    obtain ⟨a, b, rest, hg, hs, hn⟩ := re_variable_sound h1
    rw [hs, escaped_perc_source_append,
      escaped_perc_source_all_plain _ (placeholder_plain a b g hg),
      re_variable_complete a b g _ hg, hn]
  | none =>
    cases h2 : re_variable (escaped_perc_source t) with
    | none => rfl
    | some r =>
      obtain ⟨g, n⟩ := r
      obtain ⟨a, b, rest, hg, hs, hn⟩ := re_variable_sound h2
      obtain ⟨t3, e3, _⟩ := escaped_perc_source_split_plain (placeholder a g b) t rest
        (placeholder_plain a b g hg) hs
      rw [e3, re_variable_complete a b g t3 hg] at h1
      exact absurd h1 (by simp)

/-- Where no placeholder starts at the head of the template, the scan of the
escaped text copies the image of the first byte. -/
theorem regex_replace_escaped_cons (repl : CStr) (c : Nat) (t : CStr)
    (h : re_variable (c :: t) = none) :
    regex_replace re_variable repl 0 (escaped_perc_source (c :: t)) =
      (escaped_perc_source [c] ++ (regex_replace re_variable repl 0 (escaped_perc_source t)).1,
        (regex_replace re_variable repl 0 (escaped_perc_source t)).2) := by
  by_cases hc : c = 123
  · subst hc
    have h' := re_variable_escaped (123 :: t)
    rw [h, escaped_perc_source_cons] at h'
    have himg : escaped_perc_source [123] = [123] := rfl
    rw [escaped_perc_source_cons, himg] at h' ⊢
    exact regex_replace_none _ _ _ _ h'
  · rw [escaped_perc_source_cons]
    exact regex_replace_variable_prefix repl _ _ (fun hm => hc (escaped_perc_source_open hm))

theorem g_strdup_printf_cons (c : Nat) (hc : c ≠ 37) (f : CStr) (args : List CStr) :
    g_strdup_printf false (c :: f) args = (g_strdup_printf false f args).map (c :: ·) := by
  rw [g_strdup_printf, if_neg hc]

theorem g_strdup_printf_percent (f : CStr) (args : List CStr) :
    g_strdup_printf false (37 :: 37 :: f) args =
      (g_strdup_printf false f args).map (37 :: ·) := by
  simp [g_strdup_printf]

theorem g_strdup_printf_slot (f : CStr) (a : CStr) (args : List CStr) :
    g_strdup_printf false (37 :: 115 :: f) (a :: args) =
      (g_strdup_printf false f args).map (a ++ ·) := by
  simp [g_strdup_printf]

/-- Decoding the format text and substituting its `%s` slots with the values
of the recorded variables gives the expanded template. -/
theorem printf_final_source (tmpl_var : CStr → CStr) (n : Nat) :
    ∀ t : CStr, t.length ≤ n → (∀ b ∈ t, 0 < b ∧ b < 256) →
      g_strdup_printf false
        (c_string_literal .text
          (regex_replace re_variable (ascii "%s") 0 (escaped_perc_source t)).1)
        ((regex_replace re_variable (ascii "%s") 0 (escaped_perc_source t)).2.map tmpl_var)
        = some (expand_template tmpl_var 0 t) := by
  induction n with
  | zero =>
    intro t hn _
    have : t = [] := List.length_eq_zero.1 (Nat.le_zero.1 hn)
    subst this
    rfl
  | succ n ih =>
    intro t hn hb
    cases t with
    | nil => rfl
    | cons c t =>
      have hbt : ∀ b ∈ t, 0 < b ∧ b < 256 := fun b h => hb b (List.mem_cons_of_mem _ h)
      have hcb := hb c (List.mem_cons_self _ _)
      have hlen : t.length ≤ n := by simpa using hn
      cases hre : re_variable (c :: t) with
      | none =>
        rw [regex_replace_escaped_cons _ c t hre]
        simp only [expand_template, hre]
        have ih' := ih t hlen hbt
        rw [escaped_perc_source_byte]
        by_cases hc : c = 37
        · subst hc
          rw [if_pos rfl]
          have e1 : c_string_literal .text ([37, 37] ++
              (regex_replace re_variable (ascii "%s") 0 (escaped_perc_source t)).1) =
              37 :: 37 :: c_string_literal .text
                (regex_replace re_variable (ascii "%s") 0 (escaped_perc_source t)).1 :=
            c_string_literal_plain [37, 37] _ (by decide)
          rw [e1, g_strdup_printf_percent, ih']
          rfl
        · rw [if_neg hc, c_string_literal_escape_byte c hcb.2, g_strdup_printf_cons c hc, ih']
          rfl
      | some r =>
        obtain ⟨g, len⟩ := r
        obtain ⟨a, b, rest, hg, hs, hlen'⟩ := re_variable_sound hre
        have hrest : rest = t.drop (len - 1) := by
          obtain ⟨tl, htl⟩ : ∃ tl, placeholder a g b = 123 :: tl := ⟨_, rfl⟩
          rw [htl, List.cons_append] at hs
          have ht : t = tl ++ rest := (List.cons.inj hs).2
          have hl : len - 1 = tl.length := by rw [hlen', htl]; simp
          rw [ht, hl, List.drop_left]
        have hE : escaped_perc_source (c :: t) =
            placeholder a g b ++ escaped_perc_source rest := by
          rw [hs, escaped_perc_source_append,
            escaped_perc_source_all_plain _ (placeholder_plain a b g hg)]
        have hrl : rest.length ≤ n := by
          have := congrArg List.length hs
          rw [List.length_append, placeholder_length] at this
          simp only [List.length_cons] at this hn
          omega
        have hbr : ∀ x ∈ rest, 0 < x ∧ x < 256 := by
          intro x hx
          apply hb x
          rw [hs]
          exact List.mem_append_right _ hx
        have ih' := ih rest hrl hbr
        rw [hE, regex_replace_variable_placeholder _ _ _ _ _ hg]
        simp only [expand_template, hre, List.map_cons]
        rw [expand_template_skip, ← hrest]
        have e1 : c_string_literal .text (ascii "%s" ++
            (regex_replace re_variable (ascii "%s") 0 (escaped_perc_source rest)).1) =
            37 :: 115 :: c_string_literal .text
              (regex_replace re_variable (ascii "%s") 0 (escaped_perc_source rest)).1 :=
          c_string_literal_plain (ascii "%s") _ (by decide)
        rw [e1, g_strdup_printf_slot, ih']
        rfl

/-- C17: for a template of nonzero bytes that holds at least one placeholder,
and any rendering context, reading the emitted format constant as a C string
literal and substituting its `%s` slots in order with the context values of
the recorded variables gives the template with each placeholder occurrence
replaced by the value of its variable and every other byte unchanged. -/
theorem C17_render_expands_template (t : CStr) (tmpl_var : CStr → CStr)
    (hb : ∀ b ∈ t, 0 < b ∧ b < 256) (hp : HasPlaceholder t) :
    render t tmpl_var = some (expand_template tmpl_var 0 t) := by
  have hv : template_variables t ≠ [] := fun e => (template_variables_nil_iff t).1 e hp
  rw [render]
  simp only [if_neg hv]
  exact printf_final_source tmpl_var t.length t (Nat.le_refl _) hb

/-- The template `"50%" of {{ a }}\{{b}}` followed by a newline and the byte
200, with `a` valued `x%sy` and `b` valued `Z`. -/
theorem C17_render_expands_template_witness :
    render (ascii "\"50%\" of \x7b\x7b a \x7d\x7d\\\x7b\x7bb\x7d\x7d\n" ++ [200])
      (fun v => if v = ascii "a" then ascii "x%sy" else ascii "Z")
      = some (ascii "\"50%\" of x%sy\\Z\n" ++ [200]) :=
  C17_render_expands_template (ascii "\"50%\" of \x7b\x7b a \x7d\x7d\\\x7b\x7bb\x7d\x7d\n" ++ [200])
    (fun v => if v = ascii "a" then ascii "x%sy" else ascii "Z") (by decide)
    ((template_variables_nil_iff _).not_left.1 (by decide))

end Balde
